import Mathlib

/-!
Shallow embedding of the PML MDA drill-down app (`src/src/App.jsx`, with its
sibling revisions `src/unnamed/part_000` and `src/unnamed/part_001`) and proofs
about its data model, aggregation functions and load-lifecycle coordinator.

JavaScript numbers are modelled as exact rationals extended with `NaN` and the
two infinities.  At the magnitudes this app handles (prices, counts, hours)
IEEE doubles neither overflow nor round on the operations the app performs
(comparison, addition by small sums, division by a count), so rational
arithmetic is the exact semantics of those operations.
-/

namespace PmlApp

/-- Model of a JavaScript number: a finite rational, `NaN`, or an infinity. -/
inductive JNum where
  | fin (q : ℚ)
  | nan
  | inf
  | ninf
deriving DecidableEq

open JNum

/-- JavaScript strict `<` on numbers: every comparison involving `NaN` is false,
infinities compare in the usual way. -/
def jlt : JNum → JNum → Bool
  | fin a, fin b => a < b
  | fin _, inf => true
  | ninf, fin _ => true
  | ninf, inf => true
  | _, _ => false

/-- JavaScript `+` on numbers: `NaN` is absorbing, `Infinity + (-Infinity)` is `NaN`. -/
def jadd : JNum → JNum → JNum
  | fin a, fin b => fin (a + b)
  | nan, _ => nan
  | _, nan => nan
  | inf, ninf => nan
  | ninf, inf => nan
  | inf, _ => inf
  | _, inf => inf
  | ninf, _ => ninf
  | _, ninf => ninf

/-- JavaScript division of a number by a (nonnegative integer) count, as used for
the averages in this app.  Division by `0` follows JS: `x/0` is `±Infinity` for
finite nonzero `x`, and `0/0` is `NaN`. -/
def jdivNat (x : JNum) (n : ℕ) : JNum :=
  if n = 0 then
    match x with
    | fin q => if 0 < q then inf else if q < 0 then ninf else nan
    | nan => nan
    | inf => inf
    | ninf => ninf
  else
    match x with
    | fin q => fin (q / n)
    | nan => nan
    | inf => inf
    | ninf => ninf

/-- Number.isNaN as a Boolean test on the model. -/
def isNaNb : JNum → Bool
  | nan => true
  | _ => false

/-- Floor of a rational, written out executably (numerator floor-divided by
denominator). -/
def ratFloor (q : ℚ) : ℤ :=
  Int.fdiv q.num q.den

/-- Rounding half away from zero, the default rounding of `Intl.NumberFormat`. -/
def roundHalfAway (x : ℚ) : ℤ :=
  if 0 ≤ x then ratFloor (x + 1/2) else -(ratFloor ((-x) + 1/2))

/-- Rounding to two fraction digits, as `toLocaleString` with
`maximumFractionDigits: 2` does. -/
def round2 (q : ℚ) : ℚ :=
  (roundHalfAway (q * 100) : ℚ) / 100

/-- Model of `formatMoney` (App.jsx lines 145-149).  The es-MX string rendering
is abstracted to the numeric value it displays: `null` for `NaN` input, the
value rounded to two fraction digits for finite input, and the infinity itself
for infinite input (JS renders it "∞", which is not `null`).  `Number(n)` on a
number is the identity, so the coercion is dropped. -/
def formatMoney : JNum → Option JNum
  | nan => none
  | fin q => some (fin (round2 q))
  | inf => some inf
  | ninf => some ninf

/-- Result record of `computeStats`. -/
structure Stats where
  min : Option JNum
  max : Option JNum
  avg : Option JNum
  n : ℕ
deriving DecidableEq

/-- Accumulator of the `computeStats` loop in `src/src/App.jsx`
(`let min = Infinity, max = -Infinity, sum = 0`). -/
structure StatsAccA where
  mn : JNum
  mx : JNum
  sum : JNum
deriving DecidableEq

/-- One iteration of the `computeStats` loop of `src/src/App.jsx` (lines
154-160): `NaN` entries are skipped, otherwise min/max/sum are updated. -/
def statsStepA (acc : StatsAccA) (v : JNum) : StatsAccA :=
  if isNaNb v then acc
  else
    { mn := if jlt v acc.mn then v else acc.mn
      mx := if jlt acc.mx v then v else acc.mx
      sum := jadd acc.sum v }

/-- Model of `computeStats` of `src/src/App.jsx` (lines 151-168): the loop skips
`NaN` entries for min/max/sum, but `n` is `values.length` and the average
divides the sum by that full length. -/
def computeStats (values : List JNum) : Stats :=
  if values = [] then { min := none, max := none, avg := none, n := 0 }
  else
    let r := values.foldl statsStepA { mn := inf, mx := ninf, sum := fin 0 }
    let n := values.length
    { min := formatMoney r.mn
      max := formatMoney r.mx
      avg := formatMoney (jdivNat r.sum n)
      n := n }

/-- Accumulator of the `computeStats` loop in `src/unnamed/part_000`, which also
counts the valid (non-`NaN`) entries. -/
structure StatsAccB where
  mn : JNum
  mx : JNum
  sum : JNum
  count : ℕ
deriving DecidableEq

/-- One iteration of the `computeStats` loop of `src/unnamed/part_000` (lines
171-178). -/
def statsStepB (acc : StatsAccB) (v : JNum) : StatsAccB :=
  if isNaNb v then acc
  else
    { mn := if jlt v acc.mn then v else acc.mn
      mx := if jlt acc.mx v then v else acc.mx
      sum := jadd acc.sum v
      count := acc.count + 1 }

/-- Model of `computeStats` of `src/unnamed/part_000` (lines 164-186): skips
`NaN` entries, counts only valid entries, divides by the valid count, and
returns the all-null sentinel when no entry is valid. -/
def computeStatsV0 (values : List JNum) : Stats :=
  if values = [] then { min := none, max := none, avg := none, n := 0 }
  else
    let r := values.foldl statsStepB { mn := inf, mx := ninf, sum := fin 0, count := 0 }
    if r.count = 0 then { min := none, max := none, avg := none, n := 0 }
    else
      { min := formatMoney r.mn
        max := formatMoney r.mx
        avg := formatMoney (jdivNat r.sum r.count)
        n := r.count }

/-- Lexicographic comparison of character lists by code point. -/
def lexLe : List Char → List Char → Bool
  | [], _ => true
  | _ :: _, [] => false
  | a :: as, b :: bs =>
    if a.toNat < b.toNat then true
    else if b.toNat < a.toNat then false
    else lexLe as bs

/-- Model of the default JavaScript string comparison (`Array.prototype.sort`
without a comparator, and `localeCompare` on the plain ASCII date/month keys of
this app): lexicographic by code unit, which on these ASCII keys is exactly
code-point order. -/
def strLe (a b : String) : Bool :=
  lexLe a.data b.data

/-- Insertion of an element into a sorted list after any elements the comparator
deems less-or-equal, preserving the relative order of ties as JS's stable sort
does. -/
def insertAfterEq {α : Type} (le : α → α → Bool) (x : α) : List α → List α
  | [] => [x]
  | y :: ys => if le y x then y :: insertAfterEq le x ys else x :: y :: ys

/-- Model of `Array.prototype.sort`: a stable comparison sort by the given
comparator (ECMAScript guarantees stability; the particular algorithm is
unspecified, so any stable comparison sort is an exact model). -/
def jsSort {α : Type} (le : α → α → Bool) (l : List α) : List α :=
  l.foldl (fun acc x => insertAfterEq le x acc) []

/-- One step of building `Array.from(new Set(xs))`: a JS `Set` keeps the first
occurrence of each element, in insertion order. -/
def setStep {α : Type} [DecidableEq α] (acc : List α) (x : α) : List α :=
  if x ∈ acc then acc else acc ++ [x]

/-- Model of `Array.from(new Set(xs))`: the distinct elements of `xs`, first
occurrences first. -/
def jsSetToArray {α : Type} [DecidableEq α] (l : List α) : List α :=
  l.foldl setStep []

/-- A JSON cell value as it occurs in a payload row: a number, a string, `null`,
or absent (an out-of-range index reads as `undefined`). -/
inductive Cell where
  | num (x : JNum)
  | str (s : String)
  | nullv
  | absent
deriving DecidableEq

/-- Reading `row[i]` on a JS array: the cell, or `undefined` past the end. -/
def cellAt (r : List Cell) (i : ℕ) : Cell :=
  r.getD i Cell.absent

/-- The `??` (nullish-coalescing) operator on a cell. -/
def nullish (c d : Cell) : Cell :=
  match c with
  | Cell.nullv => d
  | Cell.absent => d
  | c => c

/-- Whitespace test for the implicit trimming `Number()` performs on strings. -/
def isSpaceChar (c : Char) : Bool :=
  c = ' ' ∨ c = '\t' ∨ c = '\n' ∨ c = '\r'

/-- Trimming leading and trailing whitespace from a character list. -/
def trimChars (cs : List Char) : List Char :=
  ((cs.dropWhile isSpaceChar).reverse.dropWhile isSpaceChar).reverse

/-- Value of a decimal-digit character. -/
def digitVal (c : Char) : Option ℕ :=
  if '0' ≤ c ∧ c ≤ '9' then some (c.toNat - 48) else none

/-- Value of an all-digit character list (`some 0` for the empty list, which the
caller disambiguates). -/
def digitsVal (cs : List Char) : Option ℕ :=
  cs.foldl
    (fun acc c =>
      match acc, digitVal c with
      | some a, some d => some (a * 10 + d)
      | _, _ => none)
    (some 0)

/-- Splitting a character list at its first `.`, if any. -/
def splitDot : List Char → List Char × Option (List Char)
  | [] => ([], none)
  | c :: r =>
    if c = '.' then ([], some r)
    else
      let p := splitDot r
      (c :: p.1, p.2)

/-- Model of the JavaScript `Number()` coercion on a string, covering the plain
(optionally signed) decimal literals that occur in these payloads; the empty or
all-whitespace string coerces to `0`, any other string outside this grammar (as
in the malformed-row scenarios) coerces to `NaN`.  Exponent and hex forms do
not occur in these payloads and are outside the model. -/
def numOfString (s : String) : JNum :=
  let cs := trimChars s.data
  if cs = [] then fin 0
  else
    let sb : ℚ × List Char :=
      match cs with
      | '-' :: r => (-1, r)
      | '+' :: r => (1, r)
      | r => (1, r)
    if sb.2 = [] then nan
    else
      let p := splitDot sb.2
      match p.2 with
      | none =>
        match digitsVal p.1 with
        | some v => fin (sb.1 * v)
        | none => nan
      | some fp =>
        if p.1 = [] ∧ fp = [] then nan
        else
          match digitsVal p.1, digitsVal fp with
          | some a, some b => fin (sb.1 * ((a : ℚ) + (b : ℚ) / ((10 : ℚ) ^ fp.length)))
          | _, _ => nan

/-- Model of the JavaScript `Number()` coercion on a cell: numbers unchanged,
strings parsed, `null` is `0`, `undefined` is `NaN`. -/
def toNumber : Cell → JNum
  | Cell.num x => x
  | Cell.str s => numOfString s
  | Cell.nullv => fin 0
  | Cell.absent => nan

/-- Payload row index 0 (`row[0]` in the source) is used directly as the date
string; dates are strings in every payload of this app, so non-string cells do
not occur at index 0 and read as the empty string here. -/
def cellDate : Cell → String
  | Cell.str s => s
  | _ => ""

/-- Canonical daily row committed to `dailySeries` (`{d, avg, min, max, n}` in
`src/src/App.jsx`; `part_000` builds the same field set). -/
structure DRow where
  d : String
  avg : JNum
  min : JNum
  max : JNum
  n : JNum
deriving DecidableEq

/-- Daily-series payload: the top-level keys the two loader revisions read.
Absent keys are `none`. -/
structure DailyPayload where
  rows : Option (List (List Cell))
  daily : Option (List (List Cell))
  tz : Option String
deriving DecidableEq

/-- Daily-series row mapping of `src/src/App.jsx` (lines 259-265): reads
`data.daily`, interpreting each row positionally as
`(date, avg, min, max, count)`. -/
def dailyRowsApp (data : DailyPayload) : List DRow :=
  (data.daily.getD []).map fun row =>
    { d := cellDate (cellAt row 0)
      avg := toNumber (cellAt row 1)
      min := toNumber (cellAt row 2)
      max := toNumber (cellAt row 3)
      n := toNumber (nullish (cellAt row 4) (Cell.num (fin 0))) }

/-- Daily-series row mapping of `src/unnamed/part_000` (lines 285-294): reads
`data.rows` falling back to `data.daily` (`data.rows || data.daily || []`),
interpreting each row positionally as `(date, count, avg, min, max)` in either
case. -/
def dailyRowsV0 (data : DailyPayload) : List DRow :=
  ((data.rows.orElse fun _ => data.daily).getD []).map fun row =>
    { d := cellDate (cellAt row 0)
      n := toNumber (nullish (cellAt row 1) (Cell.num (fin 0)))
      avg := toNumber (cellAt row 2)
      min := toNumber (cellAt row 3)
      max := toNumber (cellAt row 4) }

/-- Model of `String(n).padStart(2, "0")`'s `padStart` part. -/
def pad2 (s : String) : String :=
  if s.length < 2 then String.mk (List.replicate (2 - s.length) '0') ++ s else s

/-- Model of JavaScript `String(n)` on a number: exact for integral finite
values (the hour field it is applied to is always integral); non-integral
rationals are rendered `num/den`, `NaN` and the infinities as in JS. -/
def jsNumToString : JNum → String
  | fin q =>
    if q.den = 1 then
      (if q.num < 0 then "-" ++ Nat.repr q.num.natAbs else Nat.repr q.num.natAbs)
    else
      (if q.num < 0 then "-" else "") ++ Nat.repr q.num.natAbs ++ "/" ++ Nat.repr q.den
  | nan => "NaN"
  | inf => "Infinity"
  | ninf => "-Infinity"

/-- Hourly chart point (`{d, h, t, pml}` in the source). -/
structure Pt where
  d : String
  h : JNum
  t : String
  pml : JNum
deriving DecidableEq

/-- Hourly-series row mapping (App.jsx lines 345-356): each raw row
`(date, hour, price)` is kept, with hour and price coerced by `Number()`. -/
def hourlyPts (rows : List (List Cell)) : List Pt :=
  rows.map fun r =>
    let d := cellDate (cellAt r 0)
    let h := toNumber (cellAt r 1)
    let p := toNumber (cellAt r 2)
    { d := d, h := h, t := d ++ " " ++ pad2 (jsNumToString h) ++ ":00", pml := p }

/-- Display metadata of an hourly payload, passed through unchanged. -/
structure HourlyMeta where
  project : Option String
  displayName : Option String
  node : Option String
  rawNode : Option String
  system : Option String
  month : Option String
deriving DecidableEq

/-- Hourly-series payload: rows plus the metadata fields the loader copies. -/
structure HourlyPayload where
  rows : Option (List (List Cell))
  project : Option String
  displayName : Option String
  node : Option String
  rawNode : Option String
  system : Option String
  month : Option String
deriving DecidableEq

/-- The metadata record `setMonthlyMeta` receives (App.jsx lines 358-365). -/
def metaOf (data : HourlyPayload) : HourlyMeta :=
  { project := data.project
    displayName := data.displayName
    node := data.node
    rawNode := data.rawNode
    system := data.system
    month := data.month }

/-- One node entry of the per-project catalog (`index.json`). -/
structure NodeEntry where
  node : String
  system : String
  months : List String
deriving DecidableEq

/-- The per-project catalog as the app reads it; either key may be absent. -/
structure IndexData where
  defaultNode : Option String
  nodes : Option (List NodeEntry)
deriving DecidableEq

/-- Model of the `yearOptions` memo (App.jsx lines 284-288): distinct year
slices of the daily dates, sorted. -/
def yearOptions (dailySeries : List DRow) : List String :=
  jsSort strLe (jsSetToArray (dailySeries.map fun r => r.d.take 4))

/-- Model of the `monthOptions` memo (App.jsx lines 238-242): the selected
node's catalog months, copied and sorted (no deduplication in the source). -/
def monthOptions (indexData : Option IndexData) (node : String) : List String :=
  match indexData with
  | none => []
  | some idx =>
    match idx.nodes with
    | none => []
    | some ns =>
      if node = "" then []
      else jsSort strLe (((ns.find? fun n => n.node = node).map NodeEntry.months).getD [])

/-- Model of the `dayOptions` memo (App.jsx lines 384-388): distinct dates of
the loaded hourly series, sorted. -/
def dayOptions (monthlySeries : List Pt) : List String :=
  jsSort strLe (jsSetToArray (monthlySeries.map Pt.d))

/-- Per-month accumulator of the `histChart` memo
(`{ sumAvg, n, min, max }`, App.jsx line 296). -/
structure HistGroup where
  sumAvg : JNum
  n : ℕ
  min : JNum
  max : JNum
deriving DecidableEq

/-- Initial accumulator `{ sumAvg: 0, n: 0, min: Infinity, max: -Infinity }`. -/
def histGroup0 : HistGroup :=
  { sumAvg := fin 0, n := 0, min := inf, max := ninf }

/-- The loop body mutating one month's accumulator (App.jsx lines 297-300). -/
def histExtend (g : HistGroup) (r : DRow) : HistGroup :=
  { sumAvg := jadd g.sumAvg r.avg
    n := g.n + 1
    min := if jlt r.min g.min then r.min else g.min
    max := if jlt g.max r.max then r.max else g.max }

/-- Month key of a daily row: `r.d.slice(0, 7)`. -/
def monthOf (r : DRow) : String :=
  r.d.take 7

/-- Lookup in the insertion-ordered association list modelling the `byMonth`
`Map`. -/
def lookupG : List (String × HistGroup) → String → Option HistGroup
  | [], _ => none
  | e :: t, k => if e.1 = k then some e.2 else lookupG t k

/-- `Map.set`: replace the value at an existing key in place, otherwise append
(JS `Map` preserves insertion order). -/
def mapSet : List (String × HistGroup) → String → HistGroup → List (String × HistGroup)
  | [], k, v => [(k, v)]
  | e :: t, k, v => if e.1 = k then (k, v) :: t else e :: mapSet t k v

/-- One iteration of the grouping loop of `histChart` (App.jsx lines 294-302). -/
def histStep (m : List (String × HistGroup)) (r : DRow) : List (String × HistGroup) :=
  let ym := monthOf r
  histExtend ((lookupG m ym).getD histGroup0) r |> mapSet m ym

/-- The `byMonth` map after the grouping loop of `histChart`. -/
def histGroups (dailySeries : List DRow) : List (String × HistGroup) :=
  dailySeries.foldl histStep []

/-- Emitted point of the historical (monthly-rollup) chart
(App.jsx lines 306-312). -/
structure HistPoint where
  t : String
  avg : JNum
  min : JNum
  max : JNum
  year : String
deriving DecidableEq

/-- Model of the `histChart` memo (App.jsx lines 291-315): group the daily rows
by `YYYY-MM`, sort the entries by month key (`localeCompare` on these ASCII
keys is code-point order) and emit one point per month with
`avg = sumAvg / n`. -/
def histChart (dailySeries : List DRow) : List HistPoint :=
  (jsSort (fun a b => strLe a.1 b.1) (histGroups dailySeries)).map fun e =>
    { t := e.1
      avg := jdivNat e.2.sumAvg e.2.n
      min := e.2.min
      max := e.2.max
      year := e.1.take 4 }

/-- Sort key embedding of a JS number for the `(a, b) => a.h - b.h` comparator:
finite values ordered by value between the infinities.  When the comparator
would return `NaN` (some operand is `NaN`) its result is implementation-defined
in ECMAScript; engines treat it as `0` (no swap), modelled here by placing
`NaN` at key `(0, 0)`.  On finite operands the model is exact. -/
def hKey : JNum → ℤ × ℚ
  | fin q => (0, q)
  | nan => (0, 0)
  | inf => (1, 0)
  | ninf => (-1, 0)

/-- The comparator `(a, b) => a.h - b.h` as a Boolean "may stay before"
relation on points, via the sort-key embedding. -/
def hCmpLe (a b : Pt) : Bool :=
  (hKey a.h).1 < (hKey b.h).1 ∨ ((hKey a.h).1 = (hKey b.h).1 ∧ (hKey a.h).2 ≤ (hKey b.h).2)

/-- Point of the day detail chart (`{t, pml, hour}`, App.jsx line 399). -/
structure DayPt where
  t : String
  pml : JNum
  hour : JNum
deriving DecidableEq

/-- Model of the `daySeries` memo (App.jsx lines 393-400): empty when no day is
selected, otherwise the selected day's points sorted ascending by hour. -/
def daySeries (monthlySeries : List Pt) (day : String) : List DayPt :=
  if day = "" then []
  else
    (jsSort hCmpLe (monthlySeries.filter fun r => r.d = day)).map fun r =>
      { t := pad2 (jsNumToString r.h) ++ ":00", pml := r.pml, hour := r.h }

/-- Parsed JSON document.  `JSON.parse` is a deterministic function of its input
text; since every claim at issue is an equality of parse results, the model
keeps the text itself as the parsed structure. -/
structure JsonDoc where
  text : String
deriving DecidableEq

/-- Model of `JSON.parse` (see `JsonDoc`). -/
def jsonParse (text : String) : JsonDoc :=
  { text := text }

/-- Byte encoding of a text payload, on the code-point level; exact for the
ASCII JSON payloads this app transports. -/
def utf8Encode (s : String) : List ℕ :=
  s.data.map Char.toNat

/-- Inverse decoding of `utf8Encode` (the `TextDecoder` branch of the
decoder). -/
def utf8Decode (bs : List ℕ) : String :=
  String.mk (bs.map Char.ofNat)

/-- Modelled from the spec: the gzip member layout is abstracted to the fixed
2-byte magic header `1F 8B` followed by the payload, with decompression its
inverse; the DEFLATE codec itself is external library code (`pako`), not part
of this repository, and the claims only use that compress/decompress is a
round trip whose output starts with the magic bytes. -/
def gzipCompress (s : String) : List ℕ :=
  0x1f :: 0x8b :: utf8Encode s

/-- Modelled from the spec: `pako.ungzip(u8, {to: "string"})` on a payload
produced by `gzipCompress` (see there). -/
def pakoUngzip (bs : List ℕ) : String :=
  utf8Decode (bs.drop 2)

/-- Model of `fetchMaybeGzJson` (App.jsx lines 30-45) after the HTTP fetch: the
received bytes are sniffed for the gzip magic `1F 8B` in the first two bytes;
a match is decompressed, anything else is decoded as UTF-8 text; either way the
text is JSON-parsed. -/
def fetchMaybeGzJson (u8 : List ℕ) : JsonDoc :=
  let isGz := 2 ≤ u8.length ∧ u8.getD 0 0 = 0x1f ∧ u8.getD 1 0 = 0x8b
  let text := if isGz then pakoUngzip u8 else utf8Decode u8
  jsonParse text

/-- The selection and loaded-data state of the `App` component: the `useState`
cells the drill-down coordinator owns. -/
structure AppState where
  projectKey : String
  node : String
  year : String
  month : String
  day : String
  indexData : Option IndexData
  dailyTz : String
  dailySeries : List DRow
  monthlySeries : List Pt
  monthlyMeta : Option HourlyMeta
  error : String
  loadingIdx : Bool
  loadingDaily : Bool
  loadingMonth : Bool
deriving DecidableEq

/-- The name of the first catalog node (`idx.nodes?.[0]?.node`), or `""`. -/
def firstNodeName (idx : IndexData) : String :=
  (((idx.nodes.getD []).head?).map NodeEntry.node).getD ""

/-- The default node a freshly loaded catalog selects:
`idx.defaultNode || idx.nodes?.[0]?.node || ""` (App.jsx line 214). -/
def defaultNodeOf (idx : IndexData) : String :=
  match idx.defaultNode with
  | some d => if d = "" then firstNodeName idx else d
  | none => firstNodeName idx

/-- The catalog entry of the default node, with the source's fallback to the
first entry: `(idx.nodes || []).find(n => n.node === defaultNode) || idx.nodes?.[0]`
(App.jsx line 217). -/
def defaultEntry (idx : IndexData) : Option NodeEntry :=
  match (idx.nodes.getD []).find? fun n => n.node = defaultNodeOf idx with
  | some e => some e
  | none => (idx.nodes.getD []).head?

/-- The month a freshly loaded catalog selects: the last element of the sorted
copy of the default entry's months, or `""` (App.jsx lines 218-219). -/
def lastMonthOf (idx : IndexData) : String :=
  (jsSort strLe (((defaultEntry idx).map NodeEntry.months).getD [])).getLast?.getD ""

/-- Success continuation of the index-load effect (App.jsx lines 212-222):
commit the catalog, pick the default node, sort that node's months and select
the last one, and derive the year from it when one exists. -/
def indexSuccess (s : AppState) (idx : IndexData) : AppState :=
  { s with
    indexData := some idx
    node := defaultNodeOf idx
    month := lastMonthOf idx
    year := if lastMonthOf idx = "" then s.year else (lastMonthOf idx).take 4 }

/-- Success continuation of the daily-load effect (App.jsx lines 259-273):
commit the timezone and mapped rows, and move the year to the last row's year
when the series is non-empty. -/
def dailySuccess (s : AppState) (data : DailyPayload) : AppState :=
  let daily := dailyRowsApp data
  { s with
    dailyTz :=
      match data.tz with
      | some t => if t = "" then "America/Mexico_City" else t
      | none => "America/Mexico_City"
    dailySeries := daily
    year :=
      match daily.getLast? with
      | some r => r.d.take 4
      | none => s.year }

/-- Success continuation of the hourly-load effect (App.jsx lines 345-373):
commit the metadata and mapped points, then keep the selected day if it still
occurs in the new month and otherwise select the first (sorted) day. -/
def monthlySuccess (s : AppState) (data : HourlyPayload) : AppState :=
  let pts := hourlyPts (data.rows.getD [])
  let days := jsSort strLe (jsSetToArray (pts.map Pt.d))
  { s with
    monthlyMeta := some (metaOf data)
    monthlySeries := pts
    day := if s.day = "" ∨ s.day ∉ days then days.headD "" else s.day }

/-- The rational value of a finite JS number (`0` on the non-finite values; the
theorems use it only under finiteness hypotheses). -/
def qOf : JNum → ℚ
  | fin q => q
  | _ => 0

/-- Decidable finiteness test on the JS-number model, used to state the
all-fields-finite hypotheses of the aggregation theorems. -/
def isFinite : JNum → Bool
  | fin _ => true
  | _ => false

/-- The initial `useState` values of the `App` component
(App.jsx lines 171-187). -/
def initialAppState : AppState :=
  { projectKey := "border"
    node := ""
    year := "2024"
    month := ""
    day := ""
    indexData := none
    dailyTz := "America/Mexico_City"
    dailySeries := []
    monthlySeries := []
    monthlyMeta := none
    error := ""
    loadingIdx := false
    loadingDaily := false
    loadingMonth := false }

/-- An in-flight load: the id of its effect instance, the selection key it was
started for, and its closed-over `cancel` flag. -/
structure Pending where
  id : ℕ
  key : String
  cancel : Bool
deriving DecidableEq

/-- Cleanup of superseded effect instances: React runs the previous instance's
cleanup (`cancel = true`) before the next body; every older instance was
already cancelled at its own supersession, so cancelling every pending load is
the same operation. -/
def cancelAll (p : List Pending) : List Pending :=
  p.map fun e => { e with cancel := true }

/-- The pending load a settling response belongs to. -/
def findPending (p : List Pending) (id : ℕ) : Option Pending :=
  p.find? fun e => e.id = id

/-- Bookkeeping removal of a settled load. -/
def removePending (p : List Pending) (id : ℕ) : List Pending :=
  p.filter fun e => e.id ≠ id

/-- State of one load axis: the app state plus that axis's in-flight loads. -/
structure AxisM where
  app : AppState
  pending : List Pending
  nextId : ℕ
deriving DecidableEq

/-- Events of the hourly-load lifecycle (App.jsx lines 330-382): a change of
the `month` dependency (re-running the effect), or the arrival of a response
for a given in-flight instance. -/
inductive MonthEvent where
  | setMonth (m : String)
  | settleOk (id : ℕ) (data : HourlyPayload)
  | settleErr (id : ℕ) (msg : String)

/-- Step function of the hourly-load lifecycle.  On a `month` change the old
instance is cancelled and the body runs: it returns early when a key part is
empty, otherwise clears the error and the hourly data and starts a tagged
load.  A settling response first checks its own `cancel` flag: a cancelled
instance returns without touching any state (its `catch` and `finally` are
equally guarded), otherwise the success or error continuation commits. -/
def monthStep (s : AxisM) : MonthEvent → AxisM
  | MonthEvent.setMonth m =>
    let p := cancelAll s.pending
    let app := { s.app with month := m }
    if app.projectKey = "" ∨ app.node = "" ∨ m = "" then
      { app := app, pending := p, nextId := s.nextId }
    else
      { app := { app with error := "", loadingMonth := true, monthlySeries := [], monthlyMeta := none }
        pending := p ++ [{ id := s.nextId, key := m, cancel := false }]
        nextId := s.nextId + 1 }
  | MonthEvent.settleOk id data =>
    match findPending s.pending id with
    | none => s
    | some e =>
      if e.cancel then { s with pending := removePending s.pending id }
      else
        { app := { monthlySuccess s.app data with loadingMonth := false }
          pending := removePending s.pending id
          nextId := s.nextId }
  | MonthEvent.settleErr id msg =>
    match findPending s.pending id with
    | none => s
    | some e =>
      if e.cancel then { s with pending := removePending s.pending id }
      else
        { app := { s.app with error := msg, loadingMonth := false }
          pending := removePending s.pending id
          nextId := s.nextId }

/-- A run of the hourly-load lifecycle over an event interleaving. -/
def monthRun (s : AxisM) (evs : List MonthEvent) : AxisM :=
  evs.foldl monthStep s

/-- Events of the catalog-load lifecycle (App.jsx lines 194-231). -/
inductive IdxEvent where
  | setProject (pk : String)
  | settleOk (id : ℕ) (idx : IndexData)
  | settleErr (id : ℕ) (msg : String)

/-- Step function of the catalog-load lifecycle: a project change cancels the
old instance, resets node/month/day and every loaded series, and starts a
tagged catalog load; settling responses are guarded by their `cancel` flag
exactly as in `monthStep`. -/
def idxStep (s : AxisM) : IdxEvent → AxisM
  | IdxEvent.setProject pk =>
    let p := cancelAll s.pending
    { app := { s.app with
        projectKey := pk
        error := ""
        loadingIdx := true
        indexData := none
        node := ""
        month := ""
        day := ""
        dailySeries := []
        monthlySeries := []
        monthlyMeta := none }
      pending := p ++ [{ id := s.nextId, key := pk, cancel := false }]
      nextId := s.nextId + 1 }
  | IdxEvent.settleOk id idx =>
    match findPending s.pending id with
    | none => s
    | some e =>
      if e.cancel then { s with pending := removePending s.pending id }
      else
        { app := { indexSuccess s.app idx with loadingIdx := false }
          pending := removePending s.pending id
          nextId := s.nextId }
  | IdxEvent.settleErr id msg =>
    match findPending s.pending id with
    | none => s
    | some e =>
      if e.cancel then { s with pending := removePending s.pending id }
      else
        { app := { s.app with error := msg, loadingIdx := false }
          pending := removePending s.pending id
          nextId := s.nextId }

/-- Events of the daily-load lifecycle (App.jsx lines 245-282): a change of the
`(projectKey, node)` dependencies, or a settling response. -/
inductive DailyEvent where
  | setNode (pk nd : String)
  | settleOk (id : ℕ) (data : DailyPayload)
  | settleErr (id : ℕ) (msg : String)

/-- Step function of the daily-load lifecycle, with the same cancel-flag
discipline as the other two axes. -/
def dailyStep (s : AxisM) : DailyEvent → AxisM
  | DailyEvent.setNode pk nd =>
    let p := cancelAll s.pending
    let app := { s.app with projectKey := pk, node := nd }
    if pk = "" ∨ nd = "" then
      { app := app, pending := p, nextId := s.nextId }
    else
      { app := { app with error := "", loadingDaily := true, dailySeries := [] }
        pending := p ++ [{ id := s.nextId, key := pk ++ "/" ++ nd, cancel := false }]
        nextId := s.nextId + 1 }
  | DailyEvent.settleOk id data =>
    match findPending s.pending id with
    | none => s
    | some e =>
      if e.cancel then { s with pending := removePending s.pending id }
      else
        { app := { dailySuccess s.app data with loadingDaily := false }
          pending := removePending s.pending id
          nextId := s.nextId }
  | DailyEvent.settleErr id msg =>
    match findPending s.pending id with
    | none => s
    | some e =>
      if e.cancel then { s with pending := removePending s.pending id }
      else
        { app := { s.app with error := msg, loadingDaily := false }
          pending := removePending s.pending id
          nextId := s.nextId }

theorem char_eq_of_toNat_eq {a b : Char} (h : a.toNat = b.toNat) : a = b :=
  Char.ext (UInt32.ext h)

theorem lexLe_refl (as : List Char) : lexLe as as = true := by
  induction as with
  | nil => rfl
  | cons a as ih => simp [lexLe, ih]

theorem lexLe_total (as : List Char) : ∀ bs, lexLe as bs = true ∨ lexLe bs as = true := by
  induction as with
  | nil => intro bs; left; rfl
  | cons a as ih =>
    intro bs
    cases bs with
    | nil => right; rfl
    | cons b bs =>
      rcases Nat.lt_trichotomy a.toNat b.toNat with h | h | h
      · left; simp [lexLe, h]
      · rcases ih bs with h2 | h2
        · left; simp [lexLe, h, h2]
        · right; simp [lexLe, h.symm, h2]
      · right; simp [lexLe, h]

theorem lexLe_trans : ∀ as bs cs, lexLe as bs = true → lexLe bs cs = true → lexLe as cs = true := by
  intro as
  induction as with
  | nil => intro bs cs _ _; rfl
  | cons a as ih =>
    intro bs cs h1 h2
    cases bs with
    | nil => simp [lexLe] at h1
    | cons b bs =>
      cases cs with
      | nil => simp [lexLe] at h2
      | cons c cs =>
        rcases Nat.lt_trichotomy a.toNat b.toNat with hab | hab | hab
        · rcases Nat.lt_trichotomy b.toNat c.toNat with hbc | hbc | hbc
          · simp [lexLe, Nat.lt_trans hab hbc]
          · simp [lexLe, hbc ▸ hab]
          · simp [lexLe, hbc, Nat.lt_asymm hbc] at h2
        · rcases Nat.lt_trichotomy b.toNat c.toNat with hbc | hbc | hbc
          · simp [lexLe, hab ▸ hbc]
          · simp only [lexLe, hab, hbc, lt_self_iff_false, if_false] at h1 h2 ⊢
            exact ih bs cs h1 h2
          · simp [lexLe, hbc, Nat.lt_asymm hbc] at h2
        · simp [lexLe, hab, Nat.lt_asymm hab] at h1

theorem lexLe_antisymm : ∀ as bs, lexLe as bs = true → lexLe bs as = true → as = bs := by
  intro as
  induction as with
  | nil =>
    intro bs h1 h2
    cases bs with
    | nil => rfl
    | cons b bs => simp [lexLe] at h2
  | cons a as ih =>
    intro bs h1 h2
    cases bs with
    | nil => simp [lexLe] at h1
    | cons b bs =>
      rcases Nat.lt_trichotomy a.toNat b.toNat with h | h | h
      · simp [lexLe, h, Nat.lt_asymm h] at h2
      · simp only [lexLe, h, lt_self_iff_false, if_false] at h1 h2
        rw [char_eq_of_toNat_eq h, ih bs h1 h2]
      · simp [lexLe, h, Nat.lt_asymm h] at h1

theorem strLe_refl (a : String) : strLe a a = true :=
  lexLe_refl a.data

theorem strLe_total (a b : String) : strLe a b = true ∨ strLe b a = true :=
  lexLe_total a.data b.data

theorem strLe_trans {a b c : String} (h1 : strLe a b = true) (h2 : strLe b c = true) :
    strLe a c = true :=
  lexLe_trans a.data b.data c.data h1 h2

theorem strLe_antisymm {a b : String} (h1 : strLe a b = true) (h2 : strLe b a = true) :
    a = b := by
  have h := lexLe_antisymm a.data b.data h1 h2
  cases a
  cases b
  exact congrArg String.mk h

theorem insertAfterEq_perm {α : Type} (le : α → α → Bool) (x : α) :
    ∀ l : List α, (insertAfterEq le x l).Perm (x :: l)
  | [] => List.Perm.refl _
  | y :: ys => by
    cases h : le y x with
    | true =>
      simp only [insertAfterEq, h, if_true]
      exact ((insertAfterEq_perm le x ys).cons y).trans (List.Perm.swap x y ys)
    | false => simp only [insertAfterEq, h, Bool.false_eq_true, if_false]; exact List.Perm.refl _

theorem jsSort_fold_perm {α : Type} (le : α → α → Bool) :
    ∀ (l acc : List α),
      (l.foldl (fun acc x => insertAfterEq le x acc) acc).Perm (acc ++ l)
  | [], acc => by simp
  | x :: l, acc => by
    rw [List.foldl_cons]
    refine (jsSort_fold_perm le l (insertAfterEq le x acc)).trans ?_
    refine ((insertAfterEq_perm le x acc).append_right l).trans ?_
    simpa using List.perm_middle.symm

theorem jsSort_perm {α : Type} (le : α → α → Bool) (l : List α) :
    (jsSort le l).Perm l := by
  simpa using jsSort_fold_perm le l []

theorem pairwise_insertAfterEq {α : Type} (le : α → α → Bool)
    (htrans : ∀ a b c, le a b = true → le b c = true → le a c = true)
    (htotal : ∀ a b, le a b = true ∨ le b a = true) (x : α) :
    ∀ l : List α, l.Pairwise (fun a b => le a b = true) →
      (insertAfterEq le x l).Pairwise (fun a b => le a b = true)
  | [], _ => by simp [insertAfterEq]
  | y :: ys, h => by
    obtain ⟨hy, hys⟩ := List.pairwise_cons.mp h
    cases hle : le y x with
    | true =>
      simp only [insertAfterEq, hle, if_true]
      rw [List.pairwise_cons]
      refine ⟨?_, pairwise_insertAfterEq le htrans htotal x ys hys⟩
      intro b hb
      rcases List.mem_cons.mp ((insertAfterEq_perm le x ys).mem_iff.mp hb) with rfl | hbys
      · exact hle
      · exact hy b hbys
    | false =>
      simp only [insertAfterEq, hle, Bool.false_eq_true, if_false]
      have hxy : le x y = true := by
        rcases htotal x y with h | h
        · exact h
        · rw [h] at hle; cases hle
      rw [List.pairwise_cons]
      refine ⟨?_, List.pairwise_cons.mpr ⟨hy, hys⟩⟩
      intro b hb
      rcases List.mem_cons.mp hb with rfl | hbys
      · exact hxy
      · exact htrans x y b hxy (hy b hbys)

theorem jsSort_pairwise {α : Type} (le : α → α → Bool)
    (htrans : ∀ a b c, le a b = true → le b c = true → le a c = true)
    (htotal : ∀ a b, le a b = true ∨ le b a = true) (l : List α) :
    (jsSort le l).Pairwise (fun a b => le a b = true) := by
  suffices h : ∀ (l acc : List α), acc.Pairwise (fun a b => le a b = true) →
      (l.foldl (fun acc x => insertAfterEq le x acc) acc).Pairwise
        (fun a b => le a b = true) from h l [] (by simp)
  intro l
  induction l with
  | nil => intro acc h; exact h
  | cons x l ih =>
    intro acc h
    exact ih _ (pairwise_insertAfterEq le htrans htotal x acc h)

theorem mem_setFold {α : Type} [DecidableEq α] :
    ∀ (l acc : List α) (x : α), x ∈ l.foldl setStep acc ↔ x ∈ acc ∨ x ∈ l
  | [], acc, x => by simp
  | y :: l, acc, x => by
    rw [List.foldl_cons, mem_setFold l _ x]
    unfold setStep
    by_cases h : y ∈ acc
    · simp only [h, if_true, List.mem_cons]
      constructor
      · rintro (hx | hx)
        · exact Or.inl hx
        · exact Or.inr (Or.inr hx)
      · rintro (hx | rfl | hx)
        · exact Or.inl hx
        · exact Or.inl h
        · exact Or.inr hx
    · simp only [h, if_false, List.mem_append, List.mem_singleton, List.mem_cons]
      tauto

theorem nodup_setFold {α : Type} [DecidableEq α] :
    ∀ (l acc : List α), acc.Nodup → (l.foldl setStep acc).Nodup
  | [], _, h => h
  | y :: l, acc, h => by
    rw [List.foldl_cons]
    apply nodup_setFold
    unfold setStep
    by_cases hy : y ∈ acc
    · simpa [hy] using h
    · simp only [hy, if_false]
      rw [List.nodup_append]
      refine ⟨h, List.nodup_singleton y, ?_⟩
      intro a ha hay
      rw [List.mem_singleton] at hay
      exact hy (hay ▸ ha)

theorem mem_jsSetToArray {α : Type} [DecidableEq α] (l : List α) (x : α) :
    x ∈ jsSetToArray l ↔ x ∈ l := by
  simpa using mem_setFold l [] x

theorem nodup_jsSetToArray {α : Type} [DecidableEq α] (l : List α) :
    (jsSetToArray l).Nodup :=
  nodup_setFold l [] List.nodup_nil

theorem headD_le_of_pairwise {α : Type} (le : α → α → Bool) (hrefl : ∀ a, le a a = true)
    (l : List α) (hp : l.Pairwise (fun a b => le a b = true)) (d : α) :
    ∀ x ∈ l, le (l.headD d) x = true := by
  cases l with
  | nil => intro x hx; cases hx
  | cons a t =>
    intro x hx
    rcases List.mem_cons.mp hx with rfl | hxt
    · exact hrefl x
    · exact (List.pairwise_cons.mp hp).1 x hxt

theorem getLastD_mem {α : Type} (d : α) :
    ∀ l : List α, l ≠ [] → (l.getLast?.getD d) ∈ l
  | [], h => absurd rfl h
  | [a], _ => by simp
  | a :: b :: t, _ => by
    rw [List.getLast?_cons_cons]
    exact List.mem_cons_of_mem a (getLastD_mem d (b :: t) (by simp))

theorem le_getLastD_of_pairwise {α : Type} (le : α → α → Bool) (hrefl : ∀ a, le a a = true) :
    ∀ l : List α, l.Pairwise (fun a b => le a b = true) →
      ∀ (d : α), ∀ x ∈ l, le x (l.getLast?.getD d) = true
  | [], _, d, x, hx => by cases hx
  | [a], _, d, x, hx => by
    rcases List.mem_singleton.mp hx with rfl
    simpa using hrefl x
  | a :: b :: t, hp, d, x, hx => by
    rw [List.getLast?_cons_cons]
    rcases List.mem_cons.mp hx with rfl | hxt
    · exact (List.pairwise_cons.mp hp).1 _ (getLastD_mem d (b :: t) (by simp))
    · exact le_getLastD_of_pairwise le hrefl (b :: t) (List.pairwise_cons.mp hp).2 d x hxt

theorem utf8Decode_encode (s : String) : utf8Decode (utf8Encode s) = s := by
  unfold utf8Decode utf8Encode
  rw [List.map_map]
  have h : (Char.ofNat ∘ Char.toNat) = id := funext fun c => Char.ofNat_toNat c
  rw [h, List.map_id]

/-- C2: the shipped `computeStats` (src/src/App.jsx) does not implement the
claimed skip-and-count policy.  At `[NaN, 10, 20]` it reports `n = 3` (the full
length, `NaN` included) and `avg = 10` (the valid sum `30` divided by the full
length `3`) instead of the claimed `n = 2`, `avg = 15`; at the non-empty
all-`NaN` input `[NaN]` it reports `min = Infinity`, `max = -Infinity`,
`avg = 0`, `n = 1` instead of the claimed all-null sentinel.  The sibling
revision `computeStatsV0` (src/unnamed/part_000) implements exactly the claimed
behaviour at both inputs, which shows the claim describes the intent. -/
theorem computeStats_nan_divergence :
    computeStats [JNum.nan, JNum.fin 10, JNum.fin 20] =
      { min := some (JNum.fin 10), max := some (JNum.fin 20), avg := some (JNum.fin 10), n := 3 }
    ∧ computeStatsV0 [JNum.nan, JNum.fin 10, JNum.fin 20] =
      { min := some (JNum.fin 10), max := some (JNum.fin 20), avg := some (JNum.fin 15), n := 2 }
    ∧ computeStats [JNum.nan] =
      { min := some JNum.inf, max := some JNum.ninf, avg := some (JNum.fin 0), n := 1 }
    ∧ computeStatsV0 [JNum.nan] = { min := none, max := none, avg := none, n := 0 } := by
  with_unfolding_all decide

/-- C3 counterexample: in an hourly payload whose first row carries the
non-numeric price `"n/a"`, the offending row is not dropped — both rows are
mapped, the bad one with `pml = NaN` — so the loaded series is not the
claimed valid-rows-only series (nor does any skip count exist in the state
the loader commits). -/
theorem hourly_bad_row_kept :
    ((hourlyPts [[Cell.str "2024-05-01", Cell.num (JNum.fin 1), Cell.str "n/a"],
        [Cell.str "2024-05-01", Cell.num (JNum.fin 2), Cell.num (JNum.fin 50)]]).map Pt.pml
      = [JNum.nan, JNum.fin 50])
    ∧ ¬ ((hourlyPts [[Cell.str "2024-05-01", Cell.num (JNum.fin 1), Cell.str "n/a"],
        [Cell.str "2024-05-01", Cell.num (JNum.fin 2), Cell.num (JNum.fin 50)]]).map Pt.pml
      = [JNum.fin 50]) := by
  with_unfolding_all decide

/-- C3 (amended): the loaders drop no rows and record no skip count: every
payload row yields exactly one mapped row, in order, with its numeric fields
coerced cell-wise (`NaN` where coercion fails), and the mapping never fails the
series. -/
theorem series_rows_all_kept (rows : List (List Cell)) (data : DailyPayload) :
    (hourlyPts rows).length = rows.length
    ∧ (hourlyPts rows).map Pt.pml = rows.map (fun r => toNumber (cellAt r 2))
    ∧ (hourlyPts rows).map Pt.d = rows.map (fun r => cellDate (cellAt r 0))
    ∧ (hourlyPts rows).map Pt.h = rows.map (fun r => toNumber (cellAt r 1))
    ∧ (dailyRowsApp data).length = (data.daily.getD []).length
    ∧ (dailyRowsApp data).map DRow.avg
        = (data.daily.getD []).map (fun r => toNumber (cellAt r 1))
    ∧ (dailyRowsV0 data).length = ((data.rows.orElse fun _ => data.daily).getD []).length := by
  refine ⟨?_, ?_, ?_, ?_, ?_, ?_, ?_⟩ <;>
    simp [hourlyPts, dailyRowsApp, dailyRowsV0, List.map_map, Function.comp_def]

/-- C5: evaluation at the failing input.  A daily payload under the historical
`daily` key whose row is in the historical order `(date, avg, min, max, count)`
= `("2024-01-01", 100, 1, 200, 24)` is transposed by the `part_000` loader,
which always applies the `(date, count, avg, min, max)` interpretation: it
produces `n = 100, avg = 1, min = 200, max = 24` instead of the claimed
`avg = 100, min = 1, max = 200, n = 24`.  Conversely the `src/src/App.jsx`
loader reads only `data.daily`, so a payload carrying its rows under the
`rows` key yields the empty series instead of being accepted. -/
theorem dailyShape_transposed :
    dailyRowsV0
        { rows := none
          daily := some [[Cell.str "2024-01-01", Cell.num (JNum.fin 100),
            Cell.num (JNum.fin 1), Cell.num (JNum.fin 200), Cell.num (JNum.fin 24)]]
          tz := none }
      = [{ d := "2024-01-01", avg := JNum.fin 1, min := JNum.fin 200,
           max := JNum.fin 24, n := JNum.fin 100 }]
    ∧ dailyRowsApp
        { rows := some [[Cell.str "2024-01-01", Cell.num (JNum.fin 24),
            Cell.num (JNum.fin 100), Cell.num (JNum.fin 1), Cell.num (JNum.fin 200)]]
          daily := none
          tz := none }
      = [] := by
  with_unfolding_all decide

/-- C7: the decoder gunzips exactly when the first two received bytes are the
gzip magic `1F 8B` (first conjunct, the detection rule as an equation on
`fetchMaybeGzJson`), and for any JSON text whose leading byte is not `0x1F`
(every JSON text: `0x1F` is an unescaped control character, illegal at the
start of JSON), decoding its gzip encoding and decoding its plain bytes both
yield the parse of that text — identical parsed structures. -/
theorem fetchMaybeGzJson_sniff_roundtrip (u8 : List ℕ) (s : String)
    (hhead : (s.data.head?.all fun c => c.toNat ≠ 0x1f) = true) :
    fetchMaybeGzJson u8 =
      jsonParse (if 2 ≤ u8.length ∧ u8.getD 0 0 = 0x1f ∧ u8.getD 1 0 = 0x8b
                 then pakoUngzip u8 else utf8Decode u8)
    ∧ fetchMaybeGzJson (gzipCompress s) = jsonParse s
    ∧ fetchMaybeGzJson (utf8Encode s) = jsonParse s := by
  refine ⟨rfl, ?_, ?_⟩
  · show jsonParse _ = jsonParse s
    rw [if_pos]
    · unfold pakoUngzip gzipCompress
      rw [show (0x1f :: 0x8b :: utf8Encode s).drop 2 = utf8Encode s from rfl,
        utf8Decode_encode]
    · refine ⟨by simp [gzipCompress], rfl, rfl⟩
  · show jsonParse _ = jsonParse s
    rw [if_neg, utf8Decode_encode]
    rintro ⟨hlen, h0, _⟩
    cases hs : s.data with
    | nil => rw [utf8Encode] at hlen; rw [hs] at hlen; simp at hlen
    | cons c rest =>
      rw [hs] at hhead
      simp only [List.head?_cons, Option.all_some, decide_eq_true_eq] at hhead
      apply hhead
      rw [utf8Encode, hs] at h0
      simpa using h0

/-- C7 witness: the round trip at the concrete JSON text `"null"` and the
detection equation at the concrete byte string `[0x1f]`. -/
theorem fetchMaybeGzJson_sniff_roundtrip_witness :
    fetchMaybeGzJson (gzipCompress "null") = jsonParse "null"
    ∧ fetchMaybeGzJson (utf8Encode "null") = jsonParse "null" := by
  have h := fetchMaybeGzJson_sniff_roundtrip [0x1f] "null" (by decide)
  exact ⟨h.2.1, h.2.2⟩

/-- C10 counterexample: a catalog entry whose `months` list contains a
duplicate is passed through `monthOptions` sorted but not deduplicated, so the
month option list exposed to the presentation layer is not duplicate-free. -/
theorem monthOptions_duplicate :
    monthOptions (some ⟨some "N", some [⟨"N", "SIN", ["2024_02", "2024_01", "2024_01"]⟩]⟩) "N"
      = ["2024_01", "2024_01", "2024_02"]
    ∧ ¬ (monthOptions
        (some ⟨some "N", some [⟨"N", "SIN", ["2024_02", "2024_01", "2024_01"]⟩]⟩) "N").Nodup := by
  with_unfolding_all decide

/-- C10 (amended): the year and day option lists are duplicate-free and sorted
ascending (they are built through a `Set`); the month option list is sorted
ascending and is a permutation of the catalog entry's `months` list — so it is
duplicate-free exactly when the catalog's list is, the source applying no
deduplication of its own. -/
theorem selectOptions_sorted (ds : List DRow) (ms : List Pt) (idx : IndexData)
    (nd : String) (ns : List NodeEntry) (e : NodeEntry)
    (hns : idx.nodes = some ns) (hfind : (ns.find? fun n => n.node = nd) = some e)
    (hnd : nd ≠ "") :
    (yearOptions ds).Nodup
    ∧ (yearOptions ds).Pairwise (fun a b => strLe a b = true)
    ∧ (dayOptions ms).Nodup
    ∧ (dayOptions ms).Pairwise (fun a b => strLe a b = true)
    ∧ (monthOptions (some idx) nd).Pairwise (fun a b => strLe a b = true)
    ∧ (monthOptions (some idx) nd).Perm e.months := by
  have hmo : monthOptions (some idx) nd = jsSort strLe e.months := by
    simp [monthOptions, hns, hnd, hfind]
  refine ⟨?_, ?_, ?_, ?_, ?_, ?_⟩
  · exact ((jsSort_perm strLe _).symm).nodup (nodup_jsSetToArray _)
  · exact jsSort_pairwise strLe (fun a b c => strLe_trans) strLe_total _
  · exact ((jsSort_perm strLe _).symm).nodup (nodup_jsSetToArray _)
  · exact jsSort_pairwise strLe (fun a b c => strLe_trans) strLe_total _
  · rw [hmo]
    exact jsSort_pairwise strLe (fun a b c => strLe_trans) strLe_total _
  · rw [hmo]
    exact jsSort_perm strLe _

/-- C10 witness: the amended option-list properties at a concrete daily series,
hourly series and catalog. -/
theorem selectOptions_sorted_witness :
    ((monthOptions (some ⟨some "N", some [⟨"N", "SIN", ["2024_03", "2024_01"]⟩]⟩) "N").Pairwise
        (fun a b => strLe a b = true))
    ∧ (monthOptions (some ⟨some "N", some [⟨"N", "SIN", ["2024_03", "2024_01"]⟩]⟩)
        "N").Perm ["2024_03", "2024_01"] := by
  have h := selectOptions_sorted [] []
    ⟨some "N", some [⟨"N", "SIN", ["2024_03", "2024_01"]⟩]⟩
    "N" [⟨"N", "SIN", ["2024_03", "2024_01"]⟩] ⟨"N", "SIN", ["2024_03", "2024_01"]⟩
    rfl (by with_unfolding_all decide) (by decide)
  exact ⟨h.2.2.2.2.1, h.2.2.2.2.2⟩

theorem hCmpLe_trans (a b c : Pt) (h1 : hCmpLe a b = true) (h2 : hCmpLe b c = true) :
    hCmpLe a c = true := by
  simp only [hCmpLe, decide_eq_true_eq] at h1 h2 ⊢
  rcases h1 with h1 | ⟨h1e, h1q⟩ <;> rcases h2 with h2 | ⟨h2e, h2q⟩
  · exact Or.inl (lt_trans h1 h2)
  · exact Or.inl (h2e ▸ h1)
  · exact Or.inl (h1e ▸ h2)
  · exact Or.inr ⟨h1e.trans h2e, le_trans h1q h2q⟩

theorem hCmpLe_total (a b : Pt) : hCmpLe a b = true ∨ hCmpLe b a = true := by
  simp only [hCmpLe, decide_eq_true_eq]
  rcases lt_trichotomy (hKey a.h).1 (hKey b.h).1 with h | h | h
  · exact Or.inl (Or.inl h)
  · rcases le_total (hKey a.h).2 (hKey b.h).2 with hq | hq
    · exact Or.inl (Or.inr ⟨h, hq⟩)
    · exact Or.inr (Or.inr ⟨h.symm, hq⟩)
  · exact Or.inr (Or.inl h)

/-- C6: for a non-empty selected day, `daySeries` returns exactly the rows of
the month's series whose date equals that day — as a permutation of the
filtered rows carrying the same hour/price values and with the same length, so
for a DST-transition day with 23 or 25 hour rows all of them appear, none
dropped or synthesized — sorted ascending by hour (hours being finite numbers
in every payload). -/
theorem daySeries_sorted_complete (ms : List Pt) (day : String) (hday : day ≠ "")
    (hfin : ∀ r ∈ ms, r.d = day → isFinite r.h = true) :
    ((daySeries ms day).map fun p => (p.hour, p.pml)).Perm
        ((ms.filter fun r => r.d = day).map fun r => (r.h, r.pml))
    ∧ (daySeries ms day).length = (ms.filter fun r => r.d = day).length
    ∧ (daySeries ms day).Pairwise fun p q => qOf p.hour ≤ qOf q.hour := by
  have hds : daySeries ms day
      = (jsSort hCmpLe (ms.filter fun r => r.d = day)).map fun r =>
          { t := pad2 (jsNumToString r.h) ++ ":00", pml := r.pml, hour := r.h } := by
    simp [daySeries, hday]
  have hperm : (jsSort hCmpLe (ms.filter fun r => r.d = day)).Perm
      (ms.filter fun r => r.d = day) := jsSort_perm _ _
  have hfin' : ∀ a ∈ jsSort hCmpLe (ms.filter fun r => r.d = day), isFinite a.h = true := by
    intro a ha
    have hm := hperm.mem_iff.mp ha
    rw [List.mem_filter] at hm
    exact hfin a hm.1 (by simpa using hm.2)
  refine ⟨?_, ?_, ?_⟩
  · rw [hds, List.map_map]
    exact hperm.map _
  · rw [hds, List.length_map]
    exact hperm.length_eq
  · rw [hds]
    have hpw : (jsSort hCmpLe (ms.filter fun r => r.d = day)).Pairwise
        (fun a b => hCmpLe a b = true) :=
      jsSort_pairwise hCmpLe hCmpLe_trans hCmpLe_total _
    have hpw2 : (jsSort hCmpLe (ms.filter fun r => r.d = day)).Pairwise
        (fun a b => qOf a.h ≤ qOf b.h) := by
      refine hpw.imp_of_mem ?_
      intro a b ha hb hab
      have hfa := hfin' a ha
      have hfb := hfin' b hb
      cases ha' : a.h with
      | fin qa =>
        cases hb' : b.h with
        | fin qb =>
          simp only [hCmpLe, decide_eq_true_eq, ha', hb', hKey, lt_self_iff_false, false_or,
            true_and] at hab
          simpa [qOf] using hab
        | nan => rw [hb'] at hfb; simp [isFinite] at hfb
        | inf => rw [hb'] at hfb; simp [isFinite] at hfb
        | ninf => rw [hb'] at hfb; simp [isFinite] at hfb
      | nan => rw [ha'] at hfa; simp [isFinite] at hfa
      | inf => rw [ha'] at hfa; simp [isFinite] at hfa
      | ninf => rw [ha'] at hfa; simp [isFinite] at hfa
    exact hpw2.map _ fun a b h => h

/-- C6 witness: the filter/sort behaviour at a concrete series holding two days
with out-of-order hours. -/
theorem daySeries_sorted_complete_witness :
    ((daySeries [⟨"2024-11-03", JNum.fin 2, "a", JNum.fin 20⟩,
        ⟨"2024-11-04", JNum.fin 0, "b", JNum.fin 5⟩,
        ⟨"2024-11-03", JNum.fin 1, "c", JNum.fin 30⟩] "2024-11-03").length
      = (List.filter (fun r : Pt => r.d = "2024-11-03")
          [⟨"2024-11-03", JNum.fin 2, "a", JNum.fin 20⟩,
           ⟨"2024-11-04", JNum.fin 0, "b", JNum.fin 5⟩,
           ⟨"2024-11-03", JNum.fin 1, "c", JNum.fin 30⟩]).length)
    ∧ ((daySeries [⟨"2024-11-03", JNum.fin 2, "a", JNum.fin 20⟩,
        ⟨"2024-11-04", JNum.fin 0, "b", JNum.fin 5⟩,
        ⟨"2024-11-03", JNum.fin 1, "c", JNum.fin 30⟩] "2024-11-03").Pairwise
          fun p q => qOf p.hour ≤ qOf q.hour) := by
  have h := daySeries_sorted_complete
    [⟨"2024-11-03", JNum.fin 2, "a", JNum.fin 20⟩,
     ⟨"2024-11-04", JNum.fin 0, "b", JNum.fin 5⟩,
     ⟨"2024-11-03", JNum.fin 1, "c", JNum.fin 30⟩] "2024-11-03"
    (by decide) (by decide)
  exact ⟨h.2.1, h.2.2⟩

/-- C8: on catalog success, the committed node is the declared default node
when one is declared (and non-empty), and the first catalog node otherwise;
whenever the default node's catalog entry is found and its months are non-empty
(month keys being non-empty `YYYY_MM` tokens), the committed month is the
lexicographically greatest of that entry's months — the consumer sorts before
taking the last element, so this holds for unsorted month lists — and the
committed year is the first four characters of that month key. -/
theorem indexSuccess_defaults (s : AppState) (idx : IndexData) :
    (∀ d, idx.defaultNode = some d → d ≠ "" → (indexSuccess s idx).node = d)
    ∧ ((idx.defaultNode = none ∨ idx.defaultNode = some "") →
        (indexSuccess s idx).node = firstNodeName idx)
    ∧ (∀ e : NodeEntry,
        ((idx.nodes.getD []).find? fun n => n.node = defaultNodeOf idx) = some e →
        e.months ≠ [] → "" ∉ e.months →
          ((indexSuccess s idx).month ∈ e.months
            ∧ (∀ m ∈ e.months, strLe m (indexSuccess s idx).month = true)
            ∧ (indexSuccess s idx).year = (indexSuccess s idx).month.take 4)) := by
  refine ⟨?_, ?_, ?_⟩
  · intro d hd hne
    show defaultNodeOf idx = d
    simp [defaultNodeOf, hd, hne]
  · rintro (h | h) <;> simp [indexSuccess, defaultNodeOf, h]
  · intro e hfind hne hnotin
    have hobj : defaultEntry idx = some e := by
      simp [defaultEntry, hfind]
    have hlm : lastMonthOf idx = (jsSort strLe e.months).getLast?.getD "" := by
      simp [lastMonthOf, hobj]
    have hperm : (jsSort strLe e.months).Perm e.months := jsSort_perm strLe e.months
    have hsne : jsSort strLe e.months ≠ [] := by
      intro h0
      apply hne
      have := hperm.length_eq
      rw [h0] at this
      exact List.eq_nil_of_length_eq_zero this.symm
    have hpw : (jsSort strLe e.months).Pairwise (fun a b => strLe a b = true) :=
      jsSort_pairwise strLe (fun a b c => strLe_trans) strLe_total e.months
    have hmem : (indexSuccess s idx).month ∈ e.months := by
      show lastMonthOf idx ∈ e.months
      rw [hlm]
      exact hperm.mem_iff.mp (getLastD_mem "" _ hsne)
    refine ⟨hmem, ?_, ?_⟩
    · intro m hm
      show strLe m (lastMonthOf idx) = true
      rw [hlm]
      exact le_getLastD_of_pairwise strLe strLe_refl _ hpw "" m (hperm.mem_iff.mpr hm)
    · have hne2 : lastMonthOf idx ≠ "" := by
        intro h0
        exact hnotin (h0 ▸ hmem)
      show (if lastMonthOf idx = "" then s.year else (lastMonthOf idx).take 4)
          = (lastMonthOf idx).take 4
      rw [if_neg hne2]

/-- C8 witness: the catalog defaults at a concrete catalog whose declared
default node is the second entry and whose month list arrives unsorted. -/
theorem indexSuccess_defaults_witness :
    (indexSuccess initialAppState
        ⟨some "N2", some [⟨"N1", "SIN", ["2024_02"]⟩,
          ⟨"N2", "BCA", ["2024_05", "2024_03", "2024_11", "2024_01"]⟩]⟩).node = "N2"
    ∧ (indexSuccess initialAppState
        ⟨some "N2", some [⟨"N1", "SIN", ["2024_02"]⟩,
          ⟨"N2", "BCA", ["2024_05", "2024_03", "2024_11", "2024_01"]⟩]⟩).month
        ∈ ["2024_05", "2024_03", "2024_11", "2024_01"]
    ∧ (∀ m ∈ ["2024_05", "2024_03", "2024_11", "2024_01"],
        strLe m (indexSuccess initialAppState
          ⟨some "N2", some [⟨"N1", "SIN", ["2024_02"]⟩,
            ⟨"N2", "BCA", ["2024_05", "2024_03", "2024_11", "2024_01"]⟩]⟩).month = true)
    ∧ (indexSuccess initialAppState
        ⟨some "N2", some [⟨"N1", "SIN", ["2024_02"]⟩,
          ⟨"N2", "BCA", ["2024_05", "2024_03", "2024_11", "2024_01"]⟩]⟩).year
        = (indexSuccess initialAppState
          ⟨some "N2", some [⟨"N1", "SIN", ["2024_02"]⟩,
            ⟨"N2", "BCA", ["2024_05", "2024_03", "2024_11", "2024_01"]⟩]⟩).month.take 4 := by
  have h := indexSuccess_defaults initialAppState
    ⟨some "N2", some [⟨"N1", "SIN", ["2024_02"]⟩,
      ⟨"N2", "BCA", ["2024_05", "2024_03", "2024_11", "2024_01"]⟩]⟩
  have h3 := h.2.2 ⟨"N2", "BCA", ["2024_05", "2024_03", "2024_11", "2024_01"]⟩
    (by with_unfolding_all decide) (by decide) (by decide)
  exact ⟨h.1 "N2" rfl (by decide), h3.1, h3.2.1, h3.2.2⟩

/-- C9: on a successful hourly load, the previously selected day is kept
exactly when it is non-empty and occurs among the loaded dates; otherwise the
day becomes the least (first, in the sorted day list) date of the loaded rows;
in particular the committed day always belongs to the loaded rows' dates when
those are non-empty. -/
theorem monthlySuccess_day_membership (s : AppState) (data : HourlyPayload)
    (hne : hourlyPts (data.rows.getD []) ≠ []) :
    ((s.day ≠ "" ∧ s.day ∈ (hourlyPts (data.rows.getD [])).map Pt.d) →
        (monthlySuccess s data).day = s.day)
    ∧ ((s.day = "" ∨ s.day ∉ (hourlyPts (data.rows.getD [])).map Pt.d) →
        ((monthlySuccess s data).day ∈ (hourlyPts (data.rows.getD [])).map Pt.d
          ∧ ∀ x ∈ (hourlyPts (data.rows.getD [])).map Pt.d,
              strLe (monthlySuccess s data).day x = true))
    ∧ (monthlySuccess s data).day ∈ (hourlyPts (data.rows.getD [])).map Pt.d := by
  have hmem : ∀ x, x ∈ jsSort strLe (jsSetToArray ((hourlyPts (data.rows.getD [])).map Pt.d))
      ↔ x ∈ (hourlyPts (data.rows.getD [])).map Pt.d := fun x =>
    (jsSort_perm strLe _).mem_iff.trans (mem_jsSetToArray _ x)
  have hpw : (jsSort strLe (jsSetToArray ((hourlyPts (data.rows.getD [])).map Pt.d))).Pairwise
      (fun a b => strLe a b = true) :=
    jsSort_pairwise strLe (fun a b c => strLe_trans) strLe_total _
  have hdays_ne : jsSort strLe (jsSetToArray ((hourlyPts (data.rows.getD [])).map Pt.d)) ≠ [] := by
    obtain ⟨p, hp⟩ := List.exists_mem_of_ne_nil _ hne
    intro h0
    have hx : p.d ∈ jsSort strLe (jsSetToArray ((hourlyPts (data.rows.getD [])).map Pt.d)) :=
      (hmem p.d).mpr (List.mem_map_of_mem Pt.d hp)
    rw [h0] at hx
    cases hx
  have hday_def : (monthlySuccess s data).day
      = if s.day = "" ∨ s.day ∉ jsSort strLe (jsSetToArray ((hourlyPts (data.rows.getD [])).map Pt.d))
        then (jsSort strLe (jsSetToArray ((hourlyPts (data.rows.getD [])).map Pt.d))).headD ""
        else s.day := rfl
  have hhead_mem :
      (jsSort strLe (jsSetToArray ((hourlyPts (data.rows.getD [])).map Pt.d))).headD ""
        ∈ jsSort strLe (jsSetToArray ((hourlyPts (data.rows.getD [])).map Pt.d)) := by
    cases hd : jsSort strLe (jsSetToArray ((hourlyPts (data.rows.getD [])).map Pt.d)) with
    | nil => exact absurd hd hdays_ne
    | cons a t => simp
  refine ⟨?_, ?_, ?_⟩
  · rintro ⟨h1, h2⟩
    rw [hday_def, if_neg]
    rintro (h0 | h0)
    · exact h1 h0
    · exact h0 ((hmem s.day).mpr h2)
  · intro h
    have hcond : s.day = "" ∨ s.day ∉ jsSort strLe (jsSetToArray ((hourlyPts (data.rows.getD [])).map Pt.d)) := by
      rcases h with h | h
      · exact Or.inl h
      · exact Or.inr fun hd => h ((hmem s.day).mp hd)
    rw [hday_def, if_pos hcond]
    refine ⟨(hmem _).mp hhead_mem, ?_⟩
    intro x hx
    exact headD_le_of_pairwise strLe strLe_refl _ hpw "" x ((hmem x).mpr hx)
  · by_cases hcond : s.day = "" ∨ s.day ∉ jsSort strLe (jsSetToArray ((hourlyPts (data.rows.getD [])).map Pt.d))
    · rw [hday_def, if_pos hcond]
      exact (hmem _).mp hhead_mem
    · rw [hday_def, if_neg hcond]
      push_neg at hcond
      exact (hmem s.day).mp hcond.2

theorem lookupG_mapSet_self : ∀ (l : List (String × HistGroup)) (k : String) (v : HistGroup),
    lookupG (mapSet l k v) k = some v
  | [], k, v => by simp [mapSet, lookupG]
  | e :: t, k, v => by
    by_cases h : e.1 = k
    · simp [mapSet, h, lookupG]
    · simp only [mapSet, h, if_false]
      simp only [lookupG, h, if_false]
      exact lookupG_mapSet_self t k v

theorem lookupG_mapSet_ne : ∀ (l : List (String × HistGroup)) (k : String) (v : HistGroup)
    (m : String), m ≠ k → lookupG (mapSet l k v) m = lookupG l m
  | [], k, v, m, hm => by simp [mapSet, lookupG, Ne.symm hm]
  | e :: t, k, v, m, hm => by
    by_cases h : e.1 = k
    · simp only [mapSet, h, if_true]
      show (if k = m then some v else lookupG t m) = (if e.1 = m then some e.2 else lookupG t m)
      rw [if_neg (Ne.symm hm), if_neg fun hem : e.1 = m => hm (hem ▸ h)]
    · simp only [mapSet, h, if_false, lookupG]
      by_cases he : e.1 = m
      · simp [he]
      · simp only [he, if_false]
        exact lookupG_mapSet_ne t k v m hm

theorem keys_mapSet_mem : ∀ (l : List (String × HistGroup)) (k : String) (v : HistGroup),
    k ∈ l.map Prod.fst → (mapSet l k v).map Prod.fst = l.map Prod.fst
  | [], k, v, hk => by cases hk
  | e :: t, k, v, hk => by
    by_cases h : e.1 = k
    · simp [mapSet, h]
    · have hk' : k ∈ t.map Prod.fst := by
        rcases List.mem_cons.mp hk with hk0 | hk0
        · exact absurd hk0.symm h
        · exact hk0
      simp only [mapSet, h, if_false, List.map_cons, keys_mapSet_mem t k v hk']

theorem keys_mapSet_not_mem : ∀ (l : List (String × HistGroup)) (k : String) (v : HistGroup),
    k ∉ l.map Prod.fst → (mapSet l k v).map Prod.fst = l.map Prod.fst ++ [k]
  | [], k, v, _ => by simp [mapSet]
  | e :: t, k, v, hk => by
    have h : e.1 ≠ k := fun h0 => hk (by rw [List.map_cons, h0]; exact List.mem_cons_self _ _)
    have hk' : k ∉ t.map Prod.fst := fun h0 => hk (by
      rw [List.map_cons]; exact List.mem_cons_of_mem _ h0)
    simp only [mapSet, h, if_false, List.map_cons, keys_mapSet_not_mem t k v hk',
      List.cons_append]

theorem lookupG_isSome_iff : ∀ (l : List (String × HistGroup)) (m : String),
    (lookupG l m).isSome ↔ m ∈ l.map Prod.fst
  | [], m => by simp [lookupG]
  | e :: t, m => by
    by_cases h : e.1 = m
    · simp [lookupG, h]
    · simp only [lookupG, h, if_false, List.map_cons, List.mem_cons]
      rw [lookupG_isSome_iff t m]
      constructor
      · exact Or.inr
      · rintro (hm | hm)
        · exact absurd hm.symm h
        · exact hm

theorem lookupG_eq_some_of_mem : ∀ (l : List (String × HistGroup)) (k : String)
    (g : HistGroup), (l.map Prod.fst).Nodup → (k, g) ∈ l → lookupG l k = some g
  | [], k, g, _, hm => by cases hm
  | e :: t, k, g, hnd, hm => by
    rw [List.map_cons, List.nodup_cons] at hnd
    rcases List.mem_cons.mp hm with rfl | hm
    · simp [lookupG]
    · have hk : e.1 ≠ k := by
        intro h
        exact hnd.1 (h ▸ List.mem_map_of_mem Prod.fst hm)
      simp only [lookupG, hk, if_false]
      exact lookupG_eq_some_of_mem t k g hnd.2 hm

theorem lookupG_histFold : ∀ (rows : List DRow) (acc : List (String × HistGroup)) (m : String),
    lookupG (rows.foldl histStep acc) m
      = if (lookupG acc m).isSome ∨ m ∈ rows.map monthOf
        then some ((rows.filter fun r => monthOf r = m).foldl histExtend
            ((lookupG acc m).getD histGroup0))
        else none
  | [], acc, m => by
    cases h : lookupG acc m with
    | none => simp [h]
    | some g => simp [h]
  | r :: rows, acc, m => by
    rw [List.foldl_cons, lookupG_histFold rows (histStep acc r) m]
    by_cases hm : monthOf r = m
    · have hlk : lookupG (histStep acc r) m
          = some (histExtend ((lookupG acc m).getD histGroup0) r) := by
        rw [histStep, hm]
        exact lookupG_mapSet_self acc m _
      rw [hlk]
      have hfl : (r :: rows).filter (fun r => monthOf r = m)
          = r :: rows.filter (fun r => monthOf r = m) := by
        simp [List.filter_cons, hm]
      rw [if_pos (Or.inl (by simp)), hfl,
        if_pos (Or.inr (by rw [List.map_cons, hm]; exact List.mem_cons_self _ _))]
      simp
    · have hlk : lookupG (histStep acc r) m = lookupG acc m := by
        rw [histStep]
        exact lookupG_mapSet_ne acc (monthOf r) _ m (fun h => hm h.symm)
      rw [hlk]
      have hfl : (r :: rows).filter (fun r => monthOf r = m)
          = rows.filter (fun r => monthOf r = m) := by
        simp [List.filter_cons, hm]
      have hmem : (m ∈ (r :: rows).map monthOf) ↔ (m ∈ rows.map monthOf) := by
        simp only [List.map_cons, List.mem_cons]
        constructor
        · rintro (h | h)
          · exact absurd h.symm hm
          · exact h
        · exact Or.inr
      rw [hfl]
      simp only [hmem]

theorem keys_histFold_nodup : ∀ (rows : List DRow) (acc : List (String × HistGroup)),
    (acc.map Prod.fst).Nodup → ((rows.foldl histStep acc).map Prod.fst).Nodup
  | [], acc, h => h
  | r :: rows, acc, h => by
    rw [List.foldl_cons]
    apply keys_histFold_nodup rows
    by_cases hk : monthOf r ∈ acc.map Prod.fst
    · rw [show (histStep acc r).map Prod.fst = acc.map Prod.fst from
        keys_mapSet_mem acc (monthOf r)
          (histExtend ((lookupG acc (monthOf r)).getD histGroup0) r) hk]
      exact h
    · rw [show (histStep acc r).map Prod.fst = acc.map Prod.fst ++ [monthOf r] from
        keys_mapSet_not_mem acc (monthOf r)
          (histExtend ((lookupG acc (monthOf r)).getD histGroup0) r) hk]
      rw [List.nodup_append]
      refine ⟨h, List.nodup_singleton _, ?_⟩
      intro a ha hay
      rw [List.mem_singleton] at hay
      exact hk (hay ▸ ha)

theorem mem_keys_histFold : ∀ (rows : List DRow) (acc : List (String × HistGroup)) (m : String),
    m ∈ (rows.foldl histStep acc).map Prod.fst ↔ m ∈ acc.map Prod.fst ∨ m ∈ rows.map monthOf
  | [], acc, m => by simp
  | r :: rows, acc, m => by
    rw [List.foldl_cons, mem_keys_histFold rows (histStep acc r) m]
    by_cases hk : monthOf r ∈ acc.map Prod.fst
    · rw [show (histStep acc r).map Prod.fst = acc.map Prod.fst from
        keys_mapSet_mem acc (monthOf r)
          (histExtend ((lookupG acc (monthOf r)).getD histGroup0) r) hk]
      simp only [List.map_cons, List.mem_cons]
      constructor
      · rintro (h | h)
        · exact Or.inl h
        · exact Or.inr (Or.inr h)
      · rintro (h | h)
        · exact Or.inl h
        · rcases h with h | h
          · exact Or.inl (h.symm ▸ hk)
          · exact Or.inr h
    · rw [show (histStep acc r).map Prod.fst = acc.map Prod.fst ++ [monthOf r] from
        keys_mapSet_not_mem acc (monthOf r)
          (histExtend ((lookupG acc (monthOf r)).getD histGroup0) r) hk]
      simp only [List.mem_append, List.mem_singleton, List.map_cons, List.mem_cons,
        List.not_mem_nil, or_false]
      exact or_assoc

theorem histExtendAll_n : ∀ (grp : List DRow) (g : HistGroup),
    (grp.foldl histExtend g).n = g.n + grp.length
  | [], g => by simp
  | r :: grp, g => by
    rw [List.foldl_cons, histExtendAll_n grp _]
    simp [histExtend]
    omega

theorem histExtendAll_sum : ∀ (grp : List DRow) (g : HistGroup),
    (grp.foldl histExtend g).sumAvg = grp.foldl (fun a r => jadd a r.avg) g.sumAvg
  | [], g => rfl
  | r :: grp, g => by
    rw [List.foldl_cons, List.foldl_cons, histExtendAll_sum grp _]
    rfl

theorem histExtendAll_min : ∀ (grp : List DRow) (g : HistGroup),
    (grp.foldl histExtend g).min = grp.foldl (fun a r => if jlt r.min a then r.min else a) g.min
  | [], g => rfl
  | r :: grp, g => by
    rw [List.foldl_cons, List.foldl_cons, histExtendAll_min grp _]
    rfl

theorem histExtendAll_max : ∀ (grp : List DRow) (g : HistGroup),
    (grp.foldl histExtend g).max = grp.foldl (fun a r => if jlt a r.max then r.max else a) g.max
  | [], g => rfl
  | r :: grp, g => by
    rw [List.foldl_cons, List.foldl_cons, histExtendAll_max grp _]
    rfl

theorem jadd_fold_fin : ∀ (grp : List DRow) (q : ℚ), (∀ r ∈ grp, isFinite r.avg = true) →
    grp.foldl (fun a r => jadd a r.avg) (JNum.fin q)
      = JNum.fin (q + (grp.map fun r => qOf r.avg).sum)
  | [], q, _ => by simp
  | r :: grp, q, hf => by
    have hr := hf r (List.mem_cons_self r grp)
    cases hr' : r.avg with
    | fin qa =>
      rw [List.foldl_cons]
      have : jadd (JNum.fin q) r.avg = JNum.fin (q + qa) := by rw [hr']; rfl
      rw [this, jadd_fold_fin grp (q + qa) fun x hx => hf x (List.mem_cons_of_mem r hx)]
      simp [hr', qOf]
      ring
    | nan => rw [hr'] at hr; simp [isFinite] at hr
    | inf => rw [hr'] at hr; simp [isFinite] at hr
    | ninf => rw [hr'] at hr; simp [isFinite] at hr

theorem foldl_min_le : ∀ (qs : List ℚ) (q : ℚ),
    qs.foldl min q ≤ q ∧ ∀ x ∈ qs, qs.foldl min q ≤ x
  | [], q => ⟨le_refl q, by simp⟩
  | a :: qs, q => by
    obtain ⟨h1, h2⟩ := foldl_min_le qs (min q a)
    rw [List.foldl_cons]
    refine ⟨h1.trans (min_le_left q a), ?_⟩
    intro x hx
    rcases List.mem_cons.mp hx with rfl | hx
    · exact h1.trans (min_le_right q x)
    · exact h2 x hx

theorem foldl_min_mem : ∀ (qs : List ℚ) (q : ℚ), qs.foldl min q = q ∨ qs.foldl min q ∈ qs
  | [], q => Or.inl rfl
  | a :: qs, q => by
    rw [List.foldl_cons]
    rcases foldl_min_mem qs (min q a) with h | h
    · rw [h]
      rcases min_choice q a with h2 | h2
      · exact Or.inl h2
      · exact Or.inr (by rw [h2]; exact List.mem_cons_self a qs)
    · exact Or.inr (List.mem_cons_of_mem a h)

theorem foldl_max_le : ∀ (qs : List ℚ) (q : ℚ),
    q ≤ qs.foldl max q ∧ ∀ x ∈ qs, x ≤ qs.foldl max q
  | [], q => ⟨le_refl q, by simp⟩
  | a :: qs, q => by
    obtain ⟨h1, h2⟩ := foldl_max_le qs (max q a)
    rw [List.foldl_cons]
    refine ⟨(le_max_left q a).trans h1, ?_⟩
    intro x hx
    rcases List.mem_cons.mp hx with rfl | hx
    · exact (le_max_right q x).trans h1
    · exact h2 x hx

theorem foldl_max_mem : ∀ (qs : List ℚ) (q : ℚ), qs.foldl max q = q ∨ qs.foldl max q ∈ qs
  | [], q => Or.inl rfl
  | a :: qs, q => by
    rw [List.foldl_cons]
    rcases foldl_max_mem qs (max q a) with h | h
    · rw [h]
      rcases max_choice q a with h2 | h2
      · exact Or.inl h2
      · exact Or.inr (by rw [h2]; exact List.mem_cons_self a qs)
    · exact Or.inr (List.mem_cons_of_mem a h)

theorem jmin_fold_fin : ∀ (grp : List DRow) (q : ℚ), (∀ r ∈ grp, isFinite r.min = true) →
    grp.foldl (fun a r => if jlt r.min a then r.min else a) (JNum.fin q)
      = JNum.fin ((grp.map fun r => qOf r.min).foldl min q)
  | [], q, _ => rfl
  | r :: grp, q, hf => by
    have hr := hf r (List.mem_cons_self r grp)
    cases hr' : r.min with
    | fin qr =>
      rw [List.foldl_cons, List.map_cons, List.foldl_cons]
      have hstep : (if jlt r.min (JNum.fin q) then r.min else JNum.fin q)
          = JNum.fin (min q (qOf r.min)) := by
        rw [hr']
        rcases le_or_lt q qr with h | h
        · simp [jlt, not_lt.mpr h, min_eq_left h, qOf]
        · simp [jlt, h, min_eq_right (le_of_lt h), qOf]
      rw [hstep, jmin_fold_fin grp _ fun x hx => hf x (List.mem_cons_of_mem r hx), hr']
    | nan => rw [hr'] at hr; simp [isFinite] at hr
    | inf => rw [hr'] at hr; simp [isFinite] at hr
    | ninf => rw [hr'] at hr; simp [isFinite] at hr

theorem jmax_fold_fin : ∀ (grp : List DRow) (q : ℚ), (∀ r ∈ grp, isFinite r.max = true) →
    grp.foldl (fun a r => if jlt a r.max then r.max else a) (JNum.fin q)
      = JNum.fin ((grp.map fun r => qOf r.max).foldl max q)
  | [], q, _ => rfl
  | r :: grp, q, hf => by
    have hr := hf r (List.mem_cons_self r grp)
    cases hr' : r.max with
    | fin qr =>
      rw [List.foldl_cons, List.map_cons, List.foldl_cons]
      have hstep : (if jlt (JNum.fin q) r.max then r.max else JNum.fin q)
          = JNum.fin (max q (qOf r.max)) := by
        rw [hr']
        rcases le_or_lt qr q with h | h
        · simp [jlt, not_lt.mpr h, max_eq_left h, qOf]
        · simp [jlt, h, max_eq_right (le_of_lt h), qOf]
      rw [hstep, jmax_fold_fin grp _ fun x hx => hf x (List.mem_cons_of_mem r hx), hr']
    | nan => rw [hr'] at hr; simp [isFinite] at hr
    | inf => rw [hr'] at hr; simp [isFinite] at hr
    | ninf => rw [hr'] at hr; simp [isFinite] at hr

theorem jmin_fold_inf_spec (grp : List DRow) (hne : grp ≠ [])
    (hf : ∀ r ∈ grp, isFinite r.min = true) :
    ∃ v, grp.foldl (fun a r => if jlt r.min a then r.min else a) JNum.inf = JNum.fin v
      ∧ v ∈ grp.map (fun r => qOf r.min) ∧ ∀ x ∈ grp.map (fun r => qOf r.min), v ≤ x := by
  cases grp with
  | nil => exact absurd rfl hne
  | cons r grp =>
    have hr := hf r (List.mem_cons_self r grp)
    cases hr' : r.min with
    | fin qr =>
      have hstep : (if jlt r.min JNum.inf then r.min else JNum.inf) = JNum.fin qr := by
        rw [hr']; rfl
      rw [List.foldl_cons, hstep]
      rw [jmin_fold_fin grp qr fun x hx => hf x (List.mem_cons_of_mem r hx)]
      refine ⟨(grp.map fun r => qOf r.min).foldl min qr, rfl, ?_, ?_⟩
      · rw [List.map_cons]
        rcases foldl_min_mem (grp.map fun r => qOf r.min) qr with h | h
        · rw [h, hr']
          exact List.mem_cons_self _ _
        · exact List.mem_cons_of_mem _ h
      · intro x hx
        rw [List.map_cons] at hx
        obtain ⟨h1, h2⟩ := foldl_min_le (grp.map fun r => qOf r.min) qr
        rcases List.mem_cons.mp hx with rfl | hx
        · rw [hr']
          exact h1
        · exact h2 x hx
    | nan => rw [hr'] at hr; simp [isFinite] at hr
    | inf => rw [hr'] at hr; simp [isFinite] at hr
    | ninf => rw [hr'] at hr; simp [isFinite] at hr

theorem jmax_fold_ninf_spec (grp : List DRow) (hne : grp ≠ [])
    (hf : ∀ r ∈ grp, isFinite r.max = true) :
    ∃ w, grp.foldl (fun a r => if jlt a r.max then r.max else a) JNum.ninf = JNum.fin w
      ∧ w ∈ grp.map (fun r => qOf r.max) ∧ ∀ x ∈ grp.map (fun r => qOf r.max), x ≤ w := by
  cases grp with
  | nil => exact absurd rfl hne
  | cons r grp =>
    have hr := hf r (List.mem_cons_self r grp)
    cases hr' : r.max with
    | fin qr =>
      have hstep : (if jlt JNum.ninf r.max then r.max else JNum.ninf) = JNum.fin qr := by
        rw [hr']; rfl
      rw [List.foldl_cons, hstep]
      rw [jmax_fold_fin grp qr fun x hx => hf x (List.mem_cons_of_mem r hx)]
      refine ⟨(grp.map fun r => qOf r.max).foldl max qr, rfl, ?_, ?_⟩
      · rw [List.map_cons]
        rcases foldl_max_mem (grp.map fun r => qOf r.max) qr with h | h
        · rw [h, hr']
          exact List.mem_cons_self _ _
        · exact List.mem_cons_of_mem _ h
      · intro x hx
        rw [List.map_cons] at hx
        obtain ⟨h1, h2⟩ := foldl_max_le (grp.map fun r => qOf r.max) qr
        rcases List.mem_cons.mp hx with rfl | hx
        · rw [hr']
          exact h1
        · exact h2 x hx
    | nan => rw [hr'] at hr; simp [isFinite] at hr
    | inf => rw [hr'] at hr; simp [isFinite] at hr
    | ninf => rw [hr'] at hr; simp [isFinite] at hr

set_option maxHeartbeats 2000000 in
/-- C4 (amended): `histChart` implements the monthly rollup except that the
emitted entries carry no `n` field (see the counterexample theorem): the empty
daily series yields the empty chart (no error); the output is sorted ascending
by month key with exactly one entry per distinct `YYYY-MM` prefix occurring in
the input; each emitted point carries `avg` = the arithmetic mean of that
month's daily `avg` values (their sum divided by the number of the month's
daily rows — daily averages, not raw hourly values), `min`/`max` = the
least/greatest of the month's daily `min`/`max` values, and `year` = the month
key's year; the number of rows in the group is recorded only in the internal
grouping accumulator, where `n` = group row count, the divisor used for the
mean.  Stated for daily rows with finite numeric fields, which is what
well-formed payloads produce. -/
theorem histChart_monthly_rollup (rows : List DRow)
    (hfin : ∀ r ∈ rows,
      isFinite r.avg = true ∧ isFinite r.min = true ∧ isFinite r.max = true) :
    histChart [] = []
    ∧ (histChart rows).Pairwise (fun p q => strLe p.t q.t = true)
    ∧ ((histChart rows).map HistPoint.t).Nodup
    ∧ (∀ m, m ∈ (histChart rows).map HistPoint.t ↔ m ∈ rows.map monthOf)
    ∧ (∀ p ∈ histChart rows,
        p.avg = JNum.fin
            (((rows.filter fun r => monthOf r = p.t).map fun r => qOf r.avg).sum
              / ((rows.filter fun r => monthOf r = p.t).length : ℚ))
        ∧ (∃ v, p.min = JNum.fin v
            ∧ v ∈ (rows.filter fun r => monthOf r = p.t).map (fun r => qOf r.min)
            ∧ ∀ x ∈ (rows.filter fun r => monthOf r = p.t).map (fun r => qOf r.min), v ≤ x)
        ∧ (∃ w, p.max = JNum.fin w
            ∧ w ∈ (rows.filter fun r => monthOf r = p.t).map (fun r => qOf r.max)
            ∧ ∀ x ∈ (rows.filter fun r => monthOf r = p.t).map (fun r => qOf r.max), x ≤ w)
        ∧ p.year = p.t.take 4)
    ∧ (∀ m g, lookupG (histGroups rows) m = some g →
        g.n = (rows.filter fun r => monthOf r = m).length) := by
  have hnd : ((histGroups rows).map Prod.fst).Nodup := keys_histFold_nodup rows [] (by simp)
  have hperm : (jsSort (fun a b => strLe a.1 b.1) (histGroups rows)).Perm (histGroups rows) :=
    jsSort_perm _ _
  have hpw : (jsSort (fun a b => strLe a.1 b.1) (histGroups rows)).Pairwise
      (fun a b => strLe a.1 b.1 = true) :=
    jsSort_pairwise (fun a b => strLe a.1 b.1)
      (fun (a b c : String × HistGroup) hab hbc => by exact strLe_trans hab hbc)
      (fun (a b : String × HistGroup) => by exact strLe_total a.1 b.1) _
  have hmemkeys : ∀ m, m ∈ (histGroups rows).map Prod.fst ↔ m ∈ rows.map monthOf := by
    intro m
    simpa using mem_keys_histFold rows [] m
  have hlookup : ∀ m, lookupG (histGroups rows) m
      = if m ∈ rows.map monthOf
        then some ((rows.filter fun r => monthOf r = m).foldl histExtend histGroup0)
        else none := by
    intro m
    simpa [lookupG] using lookupG_histFold rows [] m
  have hmapt : (histChart rows).map HistPoint.t
      = (jsSort (fun a b => strLe a.1 b.1) (histGroups rows)).map Prod.fst := by
    unfold histChart
    rw [List.map_map]
    rfl
  refine ⟨rfl, ?_, ?_, ?_, ?_, ?_⟩
  · unfold histChart
    exact hpw.map _ fun a b h => h
  · rw [hmapt]
    exact ((hperm.map Prod.fst).symm).nodup hnd
  · intro m
    rw [hmapt, (hperm.map Prod.fst).mem_iff]
    exact hmemkeys m
  · intro p hp
    unfold histChart at hp
    obtain ⟨e, he, rfl⟩ := List.mem_map.mp hp
    have heG : e ∈ histGroups rows := hperm.mem_iff.mp he
    have hlk : lookupG (histGroups rows) e.1 = some e.2 :=
      lookupG_eq_some_of_mem _ e.1 e.2 hnd heG
    rw [hlookup e.1] at hlk
    have hmemm : e.1 ∈ rows.map monthOf := by
      by_contra hmem
      rw [if_neg hmem] at hlk
      cases hlk
    rw [if_pos hmemm] at hlk
    have hg : e.2 = (rows.filter fun r => monthOf r = e.1).foldl histExtend histGroup0 :=
      (Option.some.inj hlk).symm
    have hfing : ∀ r ∈ rows.filter (fun r => monthOf r = e.1),
        isFinite r.avg = true ∧ isFinite r.min = true ∧ isFinite r.max = true :=
      fun r hr => hfin r (List.mem_filter.mp hr).1
    have hgrpne : rows.filter (fun r => monthOf r = e.1) ≠ [] := by
      obtain ⟨r, hr, hm⟩ := List.mem_map.mp hmemm
      intro h0
      have hrg : r ∈ rows.filter (fun r => monthOf r = e.1) :=
        List.mem_filter.mpr ⟨hr, by simpa using hm⟩
      rw [h0] at hrg
      cases hrg
    have hlen0 : (rows.filter (fun r => monthOf r = e.1)).length ≠ 0 :=
      fun h0 => hgrpne (List.eq_nil_of_length_eq_zero h0)
    refine ⟨?_, ?_, ?_, rfl⟩
    · have hsum : e.2.sumAvg
          = JNum.fin (((rows.filter fun r => monthOf r = e.1).map fun r => qOf r.avg).sum) := by
        rw [hg, histExtendAll_sum]
        have hz := jadd_fold_fin (rows.filter fun r => monthOf r = e.1) 0
          fun r hr => (hfing r hr).1
        simpa using hz
      have hn : e.2.n = (rows.filter (fun r => monthOf r = e.1)).length := by
        rw [hg, histExtendAll_n]
        simp [histGroup0]
      show jdivNat e.2.sumAvg e.2.n = _
      rw [hsum, hn]
      unfold jdivNat
      rw [if_neg hlen0]
    · have hmin : e.2.min = (rows.filter (fun r => monthOf r = e.1)).foldl
          (fun a r => if jlt r.min a then r.min else a) JNum.inf := by
        rw [hg, histExtendAll_min]
        rfl
      obtain ⟨v, hv, hvm, hvle⟩ := jmin_fold_inf_spec _ hgrpne fun r hr => (hfing r hr).2.1
      exact ⟨v, by rw [show (_ : HistPoint).min = e.2.min from rfl, hmin, hv], hvm, hvle⟩
    · have hmax : e.2.max = (rows.filter (fun r => monthOf r = e.1)).foldl
          (fun a r => if jlt a r.max then r.max else a) JNum.ninf := by
        rw [hg, histExtendAll_max]
        rfl
      obtain ⟨w, hw, hwm, hwle⟩ := jmax_fold_ninf_spec _ hgrpne fun r hr => (hfing r hr).2.2
      exact ⟨w, by rw [show (_ : HistPoint).max = e.2.max from rfl, hmax, hw], hwm, hwle⟩
  · intro m g hlk
    rw [hlookup m] at hlk
    by_cases hm : m ∈ rows.map monthOf
    · rw [if_pos hm] at hlk
      rw [← Option.some.inj hlk, histExtendAll_n]
      simp [histGroup0]
    · rw [if_neg hm] at hlk
      cases hlk

/-- C4 witness: the rollup properties at a concrete daily series spanning two
months, with the January rows out of order. -/
theorem histChart_monthly_rollup_witness :
    ((histChart [⟨"2024-01-02", JNum.fin 10, JNum.fin 1, JNum.fin 20, JNum.fin 24⟩,
        ⟨"2024-02-01", JNum.fin 30, JNum.fin 2, JNum.fin 40, JNum.fin 24⟩,
        ⟨"2024-01-03", JNum.fin 20, JNum.fin 0, JNum.fin 50, JNum.fin 24⟩]).Pairwise
          (fun p q => strLe p.t q.t = true))
    ∧ (∀ m, m ∈ (histChart [⟨"2024-01-02", JNum.fin 10, JNum.fin 1, JNum.fin 20, JNum.fin 24⟩,
        ⟨"2024-02-01", JNum.fin 30, JNum.fin 2, JNum.fin 40, JNum.fin 24⟩,
        ⟨"2024-01-03", JNum.fin 20, JNum.fin 0, JNum.fin 50, JNum.fin 24⟩]).map HistPoint.t
        ↔ m ∈ ([⟨"2024-01-02", JNum.fin 10, JNum.fin 1, JNum.fin 20, JNum.fin 24⟩,
            ⟨"2024-02-01", JNum.fin 30, JNum.fin 2, JNum.fin 40, JNum.fin 24⟩,
            ⟨"2024-01-03", JNum.fin 20, JNum.fin 0, JNum.fin 50, JNum.fin 24⟩] :
              List DRow).map monthOf) := by
  have h := histChart_monthly_rollup
    [⟨"2024-01-02", JNum.fin 10, JNum.fin 1, JNum.fin 20, JNum.fin 24⟩,
     ⟨"2024-02-01", JNum.fin 30, JNum.fin 2, JNum.fin 40, JNum.fin 24⟩,
     ⟨"2024-01-03", JNum.fin 20, JNum.fin 0, JNum.fin 50, JNum.fin 24⟩]
    (by decide)
  exact ⟨h.2.1, h.2.2.2.1⟩

/-- C4 counterexample: the emitted rollup entries do not carry
`n = number of rows in the group`.  The singleton January daily series and the
two-row January daily series below (every row with avg 10, min 10, max 10)
produce identical `histChart` outputs although their group sizes are 1 and 2
(second and third conjuncts exhibit the accumulator counts); consequently no
reading `nOf` of the emitted entry can equal the group row count on both
inputs (last conjunct) — the emitted points are `{t, avg, min, max, year}`
only, refuting the claim as stated. -/
theorem histChart_no_emitted_n :
    histChart [⟨"2024-01-01", JNum.fin 10, JNum.fin 10, JNum.fin 10, JNum.fin 24⟩]
      = histChart [⟨"2024-01-01", JNum.fin 10, JNum.fin 10, JNum.fin 10, JNum.fin 24⟩,
          ⟨"2024-01-02", JNum.fin 10, JNum.fin 10, JNum.fin 10, JNum.fin 24⟩]
    ∧ ((histGroups [⟨"2024-01-01", JNum.fin 10, JNum.fin 10, JNum.fin 10, JNum.fin 24⟩]).map
        fun e => e.2.n) = [1]
    ∧ ((histGroups [⟨"2024-01-01", JNum.fin 10, JNum.fin 10, JNum.fin 10, JNum.fin 24⟩,
          ⟨"2024-01-02", JNum.fin 10, JNum.fin 10, JNum.fin 10, JNum.fin 24⟩]).map
        fun e => e.2.n) = [2]
    ∧ ¬ ∃ nOf : HistPoint → ℕ,
        (∀ p ∈ histChart [⟨"2024-01-01", JNum.fin 10, JNum.fin 10, JNum.fin 10, JNum.fin 24⟩],
            nOf p = (([⟨"2024-01-01", JNum.fin 10, JNum.fin 10, JNum.fin 10, JNum.fin 24⟩] :
              List DRow).filter fun r => monthOf r = p.t).length)
        ∧ (∀ p ∈ histChart [⟨"2024-01-01", JNum.fin 10, JNum.fin 10, JNum.fin 10, JNum.fin 24⟩,
              ⟨"2024-01-02", JNum.fin 10, JNum.fin 10, JNum.fin 10, JNum.fin 24⟩],
            nOf p = (([⟨"2024-01-01", JNum.fin 10, JNum.fin 10, JNum.fin 10, JNum.fin 24⟩,
              ⟨"2024-01-02", JNum.fin 10, JNum.fin 10, JNum.fin 10, JNum.fin 24⟩] :
                List DRow).filter fun r => monthOf r = p.t).length) := by
  refine ⟨by with_unfolding_all decide, by with_unfolding_all decide,
    by with_unfolding_all decide, ?_⟩
  rintro ⟨nOf, h1, h2⟩
  have hP1 := h1 (⟨"2024-01", JNum.fin 10, JNum.fin 10, JNum.fin 10, "2024"⟩ : HistPoint)
    (by with_unfolding_all decide)
  have hP2 := h2 (⟨"2024-01", JNum.fin 10, JNum.fin 10, JNum.fin 10, "2024"⟩ : HistPoint)
    (by with_unfolding_all decide)
  have e1 : nOf (⟨"2024-01", JNum.fin 10, JNum.fin 10, JNum.fin 10, "2024"⟩ : HistPoint) = 1 := by
    rw [hP1]
    decide
  have e2 : nOf (⟨"2024-01", JNum.fin 10, JNum.fin 10, JNum.fin 10, "2024"⟩ : HistPoint) = 2 := by
    rw [hP2]
    decide
  rw [e1] at e2
  cases e2

/-- C9 witness: the day-membership property on a concrete two-day hourly
payload loaded over the initial (no day selected) state. -/
theorem monthlySuccess_day_membership_witness :
    (monthlySuccess initialAppState
        ⟨some [[Cell.str "2024-05-02", Cell.num (JNum.fin 1), Cell.num (JNum.fin 10)],
               [Cell.str "2024-05-01", Cell.num (JNum.fin 2), Cell.num (JNum.fin 20)]],
          none, none, none, none, none, none⟩).day
      ∈ (hourlyPts [[Cell.str "2024-05-02", Cell.num (JNum.fin 1), Cell.num (JNum.fin 10)],
          [Cell.str "2024-05-01", Cell.num (JNum.fin 2), Cell.num (JNum.fin 20)]]).map Pt.d := by
  have h := monthlySuccess_day_membership initialAppState
    ⟨some [[Cell.str "2024-05-02", Cell.num (JNum.fin 1), Cell.num (JNum.fin 10)],
           [Cell.str "2024-05-01", Cell.num (JNum.fin 2), Cell.num (JNum.fin 20)]],
      none, none, none, none, none, none⟩
    (by with_unfolding_all decide)
  exact h.2.2

/-- C1: supersession.  First three conjuncts: on each of the three load axes
(hourly, catalog, daily), a response settling for an effect instance whose
`cancel` flag was set — i.e. whose selection key axis changed again before it
settled — leaves the app state completely unchanged: it commits no data and
surfaces no error, whether it settles successfully or with an error.  Last
four conjuncts: in the interleaving where an hourly load for `m1` is in flight,
the user switches to `m2`, `m2`'s response arrives and only then `m1`'s late
response arrives, the final app state equals the state in which `m1`'s
response never arrived, and it carries exactly `m2`'s series and metadata with
no error surfaced. -/
theorem supersession_discards_late
    (s0 : AxisM) (m1 m2 : String) (p1 p2 : HourlyPayload)
    (hpend : s0.pending = [])
    (hpk : s0.app.projectKey ≠ "") (hnd : s0.app.node ≠ "")
    (hm1 : m1 ≠ "") (hm2 : m2 ≠ "") :
    (∀ (t : AxisM) (id : ℕ) (e : Pending) (data : HourlyPayload) (msg : String),
        findPending t.pending id = some e → e.cancel = true →
          (monthStep t (MonthEvent.settleOk id data)).app = t.app
          ∧ (monthStep t (MonthEvent.settleErr id msg)).app = t.app)
    ∧ (∀ (t : AxisM) (id : ℕ) (e : Pending) (idx : IndexData) (msg : String),
        findPending t.pending id = some e → e.cancel = true →
          (idxStep t (IdxEvent.settleOk id idx)).app = t.app
          ∧ (idxStep t (IdxEvent.settleErr id msg)).app = t.app)
    ∧ (∀ (t : AxisM) (id : ℕ) (e : Pending) (data : DailyPayload) (msg : String),
        findPending t.pending id = some e → e.cancel = true →
          (dailyStep t (DailyEvent.settleOk id data)).app = t.app
          ∧ (dailyStep t (DailyEvent.settleErr id msg)).app = t.app)
    ∧ (monthRun s0 [MonthEvent.setMonth m1, MonthEvent.setMonth m2,
          MonthEvent.settleOk (s0.nextId + 1) p2, MonthEvent.settleOk s0.nextId p1]).app
        = (monthRun s0 [MonthEvent.setMonth m1, MonthEvent.setMonth m2,
            MonthEvent.settleOk (s0.nextId + 1) p2]).app
    ∧ (monthRun s0 [MonthEvent.setMonth m1, MonthEvent.setMonth m2,
          MonthEvent.settleOk (s0.nextId + 1) p2,
          MonthEvent.settleOk s0.nextId p1]).app.monthlySeries
        = hourlyPts (p2.rows.getD [])
    ∧ (monthRun s0 [MonthEvent.setMonth m1, MonthEvent.setMonth m2,
          MonthEvent.settleOk (s0.nextId + 1) p2,
          MonthEvent.settleOk s0.nextId p1]).app.monthlyMeta
        = some (metaOf p2)
    ∧ (monthRun s0 [MonthEvent.setMonth m1, MonthEvent.setMonth m2,
          MonthEvent.settleOk (s0.nextId + 1) p2,
          MonthEvent.settleOk s0.nextId p1]).app.error = "" := by
  have hcancelM : ∀ (t : AxisM) (id : ℕ) (e : Pending) (data : HourlyPayload) (msg : String),
      findPending t.pending id = some e → e.cancel = true →
        (monthStep t (MonthEvent.settleOk id data)).app = t.app
        ∧ (monthStep t (MonthEvent.settleErr id msg)).app = t.app := by
    intro t id e data msg hfind hcancel
    refine ⟨?_, ?_⟩ <;> simp [monthStep, hfind, hcancel]
  have hcancelI : ∀ (t : AxisM) (id : ℕ) (e : Pending) (idx : IndexData) (msg : String),
      findPending t.pending id = some e → e.cancel = true →
        (idxStep t (IdxEvent.settleOk id idx)).app = t.app
        ∧ (idxStep t (IdxEvent.settleErr id msg)).app = t.app := by
    intro t id e idx msg hfind hcancel
    refine ⟨?_, ?_⟩ <;> simp [idxStep, hfind, hcancel]
  have hcancelD : ∀ (t : AxisM) (id : ℕ) (e : Pending) (data : DailyPayload) (msg : String),
      findPending t.pending id = some e → e.cancel = true →
        (dailyStep t (DailyEvent.settleOk id data)).app = t.app
        ∧ (dailyStep t (DailyEvent.settleErr id msg)).app = t.app := by
    intro t id e data msg hfind hcancel
    refine ⟨?_, ?_⟩ <;> simp [dailyStep, hfind, hcancel]
  have hne : s0.nextId ≠ s0.nextId + 1 := Nat.ne_of_lt (Nat.lt_succ_self _)
  have hS1 : monthStep s0 (MonthEvent.setMonth m1)
      = { app := { s0.app with
            month := m1
            error := ""
            loadingMonth := true
            monthlySeries := []
            monthlyMeta := none }
          pending := [{ id := s0.nextId, key := m1, cancel := false }]
          nextId := s0.nextId + 1 } := by
    simp only [monthStep, hpend, cancelAll, List.map_nil, List.nil_append]
    rw [if_neg (by simp [hpk, hnd, hm1])]
  have hS2 : monthStep (monthStep s0 (MonthEvent.setMonth m1)) (MonthEvent.setMonth m2)
      = { app := { s0.app with
            month := m2
            error := ""
            loadingMonth := true
            monthlySeries := []
            monthlyMeta := none }
          pending := [{ id := s0.nextId, key := m1, cancel := true },
                      { id := s0.nextId + 1, key := m2, cancel := false }]
          nextId := s0.nextId + 2 } := by
    rw [hS1]
    simp only [monthStep, cancelAll, List.map_cons, List.map_nil]
    rw [if_neg (by simp [hpk, hnd, hm2])]
    rfl
  have hS3 : monthRun s0 [MonthEvent.setMonth m1, MonthEvent.setMonth m2,
        MonthEvent.settleOk (s0.nextId + 1) p2]
      = { app := { monthlySuccess { s0.app with
              month := m2
              error := ""
              loadingMonth := true
              monthlySeries := []
              monthlyMeta := none } p2 with
            loadingMonth := false }
          pending := [{ id := s0.nextId, key := m1, cancel := true }]
          nextId := s0.nextId + 2 } := by
    show monthStep (monthStep (monthStep s0 (MonthEvent.setMonth m1))
        (MonthEvent.setMonth m2)) (MonthEvent.settleOk (s0.nextId + 1) p2) = _
    rw [hS2]
    simp [monthStep, findPending, removePending, hne]
  have hS4app : (monthRun s0 [MonthEvent.setMonth m1, MonthEvent.setMonth m2,
        MonthEvent.settleOk (s0.nextId + 1) p2, MonthEvent.settleOk s0.nextId p1]).app
      = (monthRun s0 [MonthEvent.setMonth m1, MonthEvent.setMonth m2,
          MonthEvent.settleOk (s0.nextId + 1) p2]).app := by
    show (monthStep (monthRun s0 [MonthEvent.setMonth m1, MonthEvent.setMonth m2,
        MonthEvent.settleOk (s0.nextId + 1) p2]) (MonthEvent.settleOk s0.nextId p1)).app = _
    apply (hcancelM _ s0.nextId { id := s0.nextId, key := m1, cancel := true } p1 "" ?_ rfl).1
    rw [hS3]
    simp [findPending]
  refine ⟨hcancelM, hcancelI, hcancelD, hS4app, ?_, ?_, ?_⟩
  · rw [hS4app, hS3]
    rfl
  · rw [hS4app, hS3]
    rfl
  · rw [hS4app, hS3]
    rfl

/-- C1 witness: the month-supersession interleaving at a concrete initial
state, months and payloads: with `2024_01`'s load in flight, switching to
`2024_02` and letting `2024_01`'s response arrive last leaves exactly
`2024_02`'s data committed and no error. -/
theorem supersession_discards_late_witness :
    (monthRun { app := { initialAppState with node := "NODO1" }, pending := [], nextId := 0 }
        [MonthEvent.setMonth "2024_01", MonthEvent.setMonth "2024_02",
         MonthEvent.settleOk 1
           ⟨some [[Cell.str "2024-02-01", Cell.num (JNum.fin 2), Cell.num (JNum.fin 22)]],
             none, none, none, none, none, none⟩,
         MonthEvent.settleOk 0
           ⟨some [[Cell.str "2024-01-01", Cell.num (JNum.fin 1), Cell.num (JNum.fin 11)]],
             none, none, none, none, none, none⟩]).app.monthlySeries
      = hourlyPts [[Cell.str "2024-02-01", Cell.num (JNum.fin 2), Cell.num (JNum.fin 22)]]
    ∧ (monthRun { app := { initialAppState with node := "NODO1" }, pending := [], nextId := 0 }
        [MonthEvent.setMonth "2024_01", MonthEvent.setMonth "2024_02",
         MonthEvent.settleOk 1
           ⟨some [[Cell.str "2024-02-01", Cell.num (JNum.fin 2), Cell.num (JNum.fin 22)]],
             none, none, none, none, none, none⟩,
         MonthEvent.settleOk 0
           ⟨some [[Cell.str "2024-01-01", Cell.num (JNum.fin 1), Cell.num (JNum.fin 11)]],
             none, none, none, none, none, none⟩]).app.error = "" := by
  have h := supersession_discards_late
    { app := { initialAppState with node := "NODO1" }, pending := [], nextId := 0 }
    "2024_01" "2024_02"
    ⟨some [[Cell.str "2024-01-01", Cell.num (JNum.fin 1), Cell.num (JNum.fin 11)]],
      none, none, none, none, none, none⟩
    ⟨some [[Cell.str "2024-02-01", Cell.num (JNum.fin 2), Cell.num (JNum.fin 22)]],
      none, none, none, none, none, none⟩
    rfl (by decide) (by decide) (by decide) (by decide)
  exact ⟨h.2.2.2.2.1, h.2.2.2.2.2.2⟩

end PmlApp
